import Mathlib

/-!
Verification development for the ocean-drive remote synchronization daemon.

The Rust sources embedded here are src/sync/remote.rs (RemoteDaemon: sync,
sync_dir, save_file, remove_from_fs, start_sync_loop) and src/sync/mod.rs
(the orchestrator run function that spawns and joins the daemon threads).

Modelling conventions:
* filesystem paths are lists of components; PathBuf::join appends the
  slash-separated components of the joined name (the Rust corner case of a
  name beginning with a slash replacing the whole path is not modelled;
  no theorem below depends on such a name);
* machine state is a record of the in-memory version mapping, a model of
  the local filesystem, and an event trace that records every remote call
  and every filesystem mutation the walk performs;
* the remote client is a record of functions (get_file, list_files,
  download_file), mirroring the logical operations the code consumes;
* every Rust unwrap on an Option or Result is translated to an explicit
  match whose failing branch produces the distinguished error value
  Err.threadAbort, modelling the thread-killing abort of the Rust original;
* the recursion of sync_dir is made total with an explicit fuel parameter;
  exhausting the fuel yields the distinguished error Err.fuel.
-/

namespace OceanDrive

/-- A filesystem path, as its list of components. -/
abbrev FPath := List String

/-- Split a list of characters at the path separator. -/
def splitPathAux : List Char → List Char → List (List Char)
  | [], cur => [cur.reverse]
  | c :: rest, cur =>
    if c = '/' then cur.reverse :: splitPathAux rest []
    else splitPathAux rest (c :: cur)

/-- Split a string into path components (separator '/'), dropping empties. -/
def splitPath (s : String) : FPath :=
  ((splitPathAux s.data []).map (fun l => String.mk l)).filter (fun c => c ≠ "")

/-- Model of PathBuf::join with a (relative) remote object name. -/
def pathJoin (p : FPath) (name : String) : FPath := p ++ splitPath name

/-- A node of the local filesystem: a directory or a file with contents. -/
inductive FNode where
  | dir : FNode
  | file (content : List Nat) : FNode
deriving DecidableEq

/-- The local filesystem: an association of paths to nodes. -/
structure FS where
  entries : List (FPath × FNode)
deriving DecidableEq

/-- Look up the node stored at a path. -/
def FS.lookup (fs : FS) (p : FPath) : Option FNode :=
  (fs.entries.find? (fun e => e.1 = p)).map (fun e => e.2)

/-- Model of Path::exists. -/
def FS.existsP (fs : FS) (p : FPath) : Bool := (fs.lookup p).isSome

/-- Errors: remote-store errors distinguishing the authorization failure. -/
inductive DriveError where
  | unauthorized : DriveError
  | otherDrive (msg : String) : DriveError
deriving DecidableEq

/-- Error outcomes of the embedded code.  threadAbort models a Rust unwrap
failure (thread-killing abort), fuel is the artificial recursion bound. -/
inductive Err where
  | drive (e : DriveError) : Err
  | io (msg : String) : Err
  | threadAbort (msg : String) : Err
  | msg (s : String) : Err
  | fuel : Err
deriving DecidableEq

/-- Does the parent directory of a path exist (the empty parent is the
always-present root of the model)? -/
def FS.parentOk (fs : FS) (p : FPath) : Bool :=
  p.dropLast = [] || fs.lookup p.dropLast = some FNode.dir

/-- Model of fs::create_dir: fails if the target exists or the parent does
not. -/
def FS.createDir (fs : FS) (p : FPath) : Except Err FS :=
  if (fs.lookup p).isSome then .error (.io "create_dir: target exists")
  else if fs.parentOk p then .ok ⟨(p, FNode.dir) :: fs.entries⟩
  else .error (.io "create_dir: missing parent")

/-- Model of fs::remove_file: fails unless the path holds a file. -/
def FS.removeFile (fs : FS) (p : FPath) : Except Err FS :=
  match fs.lookup p with
  | some (FNode.file _) => .ok ⟨fs.entries.filter (fun e => ¬ e.1 = p)⟩
  | _ => .error (.io "remove_file")

/-- Model of fs::remove_dir_all: removes the directory and its subtree. -/
def FS.removeDirAll (fs : FS) (p : FPath) : Except Err FS :=
  match fs.lookup p with
  | some FNode.dir => .ok ⟨fs.entries.filter (fun e => ¬ p.isPrefixOf e.1)⟩
  | _ => .error (.io "remove_dir_all")

/-- Model of fs::rename: moves the object at old, together with its whole
subtree, to new.  Replacing an existing file by a file is allowed; every
other collision is an error (the Unix empty-directory replacement corner
is not modelled; no theorem depends on it). -/
def FS.rename (fs : FS) (old new : FPath) : Except Err FS :=
  match fs.lookup old with
  | none => .error (.io "rename: missing source")
  | some _ =>
    if old = new then .ok fs
    else if old.isPrefixOf new then .error (.io "rename: into own subtree")
    else
      match fs.lookup new with
      | some FNode.dir => .error (.io "rename: target is a directory")
      | some (FNode.file _) =>
        match fs.lookup old with
        | some (FNode.file _) =>
          .ok ⟨(fs.entries.filter (fun e => ¬ e.1 = new)).map
            (fun e => if old.isPrefixOf e.1 then (new ++ e.1.drop old.length, e.2) else e)⟩
        | _ => .error (.io "rename: directory onto file")
      | none =>
        if fs.parentOk new then
          .ok ⟨fs.entries.map
            (fun e => if old.isPrefixOf e.1 then (new ++ e.1.drop old.length, e.2) else e)⟩
        else .error (.io "rename: missing target parent")

/-- Model of OpenOptions create+write+truncate followed by write: fails if
the target is a directory or the parent directory is missing. -/
def FS.writeFile (fs : FS) (p : FPath) (content : List Nat) : Except Err FS :=
  match fs.lookup p with
  | some FNode.dir => .error (.io "open: target is a directory")
  | some (FNode.file _) =>
    .ok ⟨fs.entries.map (fun e => if e.1 = p then (p, FNode.file content) else e)⟩
  | none =>
    if fs.parentOk p then .ok ⟨(p, FNode.file content) :: fs.entries⟩
    else .error (.io "open: missing parent")

/-- A persisted version record (sync/versions.rs data model; its field set
is fixed by the uses in remote.rs and by spec section 6). -/
structure Version where
  path : FPath
  version : String
  md5 : Option String
  parent_id : String
  is_folder : Bool
deriving DecidableEq

/-- Remote object metadata as consumed by remote.rs; every field the code
unwraps is an Option there, and is an Option here. -/
structure File where
  id : Option String
  name : Option String
  mime_type : Option String
  version : Option String
  md5 : Option String
  trashed : Option Bool
deriving DecidableEq

/-- The in-memory version mapping (Rust HashMap of String to Version),
as an association list with unique keys. -/
abbrev VMap := List (String × Version)

/-- HashMap::get. -/
def vGet (m : VMap) (k : String) : Option Version :=
  (m.find? (fun e => e.1 = k)).map (fun e => e.2)

/-- HashMap::remove. -/
def vRemove (m : VMap) (k : String) : VMap := m.filter (fun e => ¬ e.1 = k)

/-- HashMap::insert (overwrites any existing binding). -/
def vInsert (m : VMap) (k : String) (v : Version) : VMap := (k, v) :: vRemove m k

/-- The remote store client: the logical operations remote.rs consumes. -/
structure Client where
  getFile : String → Except DriveError (Option File)
  listFiles : String → Except DriveError (List File)
  downloadFile : String → Except DriveError (List Nat)

/-- One observable event of a reconciliation walk: remote calls and
filesystem mutations. -/
inductive Event where
  | getFile (id : String)
  | listChildren (id : String)
  | download (id : String)
  | createDir (p : FPath)
  | rename (src dst : FPath)
  | removeFile (p : FPath)
  | removeDirAll (p : FPath)
  | write (p : FPath)
  | reauthorize
  | saveVersions
deriving DecidableEq

/-- Is the event a filesystem mutation (create, rename, delete or write)? -/
def Event.isFsMut : Event → Bool
  | .createDir _ | .rename _ _ | .removeFile _ | .removeDirAll _ | .write _ => true
  | _ => false

/-- State threaded through a reconciliation walk: the in-memory version
mapping, the filesystem, and the event trace. -/
structure WState where
  vmap : VMap
  fs : FS
  tr : List Event
deriving DecidableEq

/-- The mime type marking a remote folder. -/
def folderMime : String := "application/vnd.google-apps.folder"

/-- Does the string contain the path separator (Rust name.contains of a
slash)? -/
def containsSlash (s : String) : Bool := s.data.any (fun c => c = '/')

/-- Insert into the association list keyed by object id, overwriting an
existing binding in place (HashMap::insert semantics for the files map
built at remote.rs lines 127-130). -/
def assocInsert (l : List (String × File)) (k : String) (f : File) :
    List (String × File) :=
  if l.any (fun e => e.1 = k) then
    l.map (fun e => if e.1 = k then (k, f) else e)
  else l ++ [(k, f)]

/-- Build the id-keyed files map from a listing (remote.rs lines 127-130);
the unwrap of File.id aborts the thread when an id is missing. -/
def collectFiles : List File → List (String × File) →
    Except Err (List (String × File))
  | [], acc => .ok acc
  | f :: rest, acc =>
    match f.id with
    | none => .error (.threadAbort "File.id unwrap")
    | some i => collectFiles rest (assocInsert acc i f)

/-- The relocation branch of the child loop (remote.rs lines 138-148):
when the recorded path of an existing entry does not start with the
current traversal directory, re-insert the entry with only its path
replaced by the path implied by the traversal. -/
def applyRelocation (dirPath : FPath) (fid : String) (f : File)
    (loc : Option Version) (m : VMap) : Except Err VMap :=
  match loc with
  | none => .ok m
  | some l =>
    if dirPath.isPrefixOf l.path then .ok m
    else
      match f.name with
      | none => .error (.threadAbort "File.name unwrap")
      | some n => .ok (vInsert (vRemove m fid) fid { l with path := pathJoin dirPath n })

/-- RemoteDaemon::remove_from_fs (remote.rs lines 256-270): delete the
object recorded by the version entry, recursively for a folder, as a
no-op when the entry is absent or its path does not exist. -/
def remove_from_fs (loc : Option Version) (fs : FS) :
    Except Err (FS × List Event) :=
  match loc with
  | none => .ok (fs, [])
  | some l =>
    if fs.existsP l.path then
      if l.is_folder then
        match fs.removeDirAll l.path with
        | .ok fs' => .ok (fs', [.removeDirAll l.path])
        | .error e => .error e
      else
        match fs.removeFile l.path with
        | .ok fs' => .ok (fs', [.removeFile l.path])
        | .error e => .error e
    else .ok (fs, [])

/-- RemoteDaemon::save_file (remote.rs lines 226-253): download the whole
content and write it, truncating the destination.  The Rust code unwraps
the download Result, so a failing download aborts the thread. -/
def save_file (c : Client) (f : File) (file_path : FPath) (fs : FS) :
    Except Err (FS × List Event) :=
  match f.id with
  | none => .error (.threadAbort "File.id unwrap")
  | some fid =>
    match c.downloadFile fid with
    | .error _ => .error (.threadAbort "download_file unwrap")
    | .ok contents =>
      match fs.writeFile file_path contents with
      | .ok fs' => .ok (fs', [.download fid, .write file_path])
      | .error e => .error e

/-- Result of one iteration of the child loop: continue with the next
child, or stop the whole directory walk early (the slash-name guard). -/
inductive StepRes where
  | cont (s : WState) : StepRes
  | stop (s : WState) : StepRes
deriving DecidableEq

/-- The new-or-changed test of the child loop (remote.rs line 151): true
when no entry exists, else compare the recorded and remote stamps (the
stamp is unwrapped only when an entry exists, as in the Rust
short-circuit). -/
def changedCheck (loc : Option Version) (f : File) : Except Err Bool :=
  match loc with
  | none => .ok true
  | some l =>
    match f.version with
    | none => .error (.threadAbort "File.version unwrap")
    | some v => .ok (decide (l.version ≠ v))

/-- The rename-if-relocated step shared by the folder branch (remote.rs
lines 169-181, which wraps the failure in its own message) and the file
branch (lines 200-204, which propagates the failure): when an entry
exists and its recorded path differs from the computed one, rename on the
filesystem. -/
def renameIfMoved (bailMsg : Bool) (loc : Option Version) (filePath : FPath)
    (fs : FS) : Except Err (FS × List Event) :=
  match loc with
  | some l =>
    if l.path ≠ filePath then
      match fs.rename l.path filePath with
      | .error e => .error (if bailMsg then Err.msg "Failed to rename" else e)
      | .ok fs' => .ok (fs', [Event.rename l.path filePath])
    else .ok (fs, [])
  | none => .ok (fs, [])

/-- Create the subdirectory when absent (remote.rs lines 184-187). -/
def ensureDir (fs : FS) (p : FPath) : Except Err (FS × List Event) :=
  if ¬ fs.existsP p then
    match fs.createDir p with
    | .error e => .error e
    | .ok fs2 => .ok (fs2, [Event.createDir p])
  else .ok (fs, [])

/-- Download the file content when it is new or its hash changed
(remote.rs lines 192-197). -/
def maybeDownload (c : Client) (f : File) (loc : Option Version)
    (dirPath : FPath) (name : String) (fs : FS) : Except Err (FS × List Event) :=
  match loc with
  | none => save_file c f (pathJoin dirPath name) fs
  | some l =>
    if l.md5 ≠ f.md5 then save_file c f (pathJoin dirPath name) fs
    else .ok (fs, [])

/-- The body of the child loop of RemoteDaemon::sync_dir (remote.rs lines
132-220), for one child with id fid and metadata f.  recur is the
recursive call into a subdirectory. -/
def processChild (c : Client) (recur : String → FPath → WState → Except Err WState)
    (parentId : String) (dirPath : FPath) (fid : String) (f : File)
    (s : WState) : Except Err StepRes :=
  match f.mime_type with
  | none => .error (.threadAbort "File.mime_type unwrap")
  | some mt =>
    let isFolder := mt = folderMime
    let loc := vGet s.vmap fid
    match applyRelocation dirPath fid f loc s.vmap with
    | .error e => .error e
    | .ok m1 =>
      match changedCheck loc f with
      | .error e => .error e
      | .ok changed =>
        if changed then
          match f.name with
          | none => .error (.threadAbort "File.name unwrap")
          | some name =>
            let filePath := pathJoin dirPath name
            match f.trashed with
            | none => .error (.threadAbort "File.trashed unwrap")
            | some isTrashed =>
              if isTrashed then
                match remove_from_fs loc s.fs with
                | .error e => .error e
                | .ok (fs', ev) => .ok (.cont ⟨vRemove m1 fid, fs', s.tr ++ ev⟩)
              else if containsSlash name then .ok (.stop { s with vmap := m1 })
              else if isFolder then
                match renameIfMoved true loc filePath s.fs with
                | .error e => .error e
                | .ok (fs1, ev1) =>
                  match ensureDir fs1 filePath with
                  | .error e => .error e
                  | .ok (fs2, ev2) =>
                    match recur fid filePath ⟨m1, fs2, s.tr ++ ev1 ++ ev2⟩ with
                    | .error e => .error e
                    | .ok s3 =>
                      let m3 := if loc.isSome then vRemove s3.vmap fid else s3.vmap
                      match f.version with
                      | none => .error (.threadAbort "File.version unwrap")
                      | some v =>
                        .ok (.cont ⟨vInsert m3 fid
                          ⟨filePath, v, f.md5, parentId, isFolder⟩, s3.fs, s3.tr⟩)
              else
                match maybeDownload c f loc dirPath name s.fs with
                | .error e => .error e
                | .ok (fs1, ev1) =>
                  match renameIfMoved false loc filePath fs1 with
                  | .error e => .error e
                  | .ok (fs2, ev2) =>
                    let m3 := if loc.isSome then vRemove m1 fid else m1
                    match f.version with
                    | none => .error (.threadAbort "File.version unwrap")
                    | some v =>
                      .ok (.cont ⟨vInsert m3 fid
                        ⟨filePath, v, f.md5, parentId, isFolder⟩, fs2,
                        s.tr ++ ev1 ++ ev2⟩)
        else .ok (.cont { s with vmap := m1 })

/-- Run the child loop over the id-keyed files map in order; the Bool
reports whether the whole list was processed (false after a soft stop). -/
def runChildren (step : String → File → WState → Except Err StepRes) :
    List (String × File) → WState → Except Err (WState × Bool)
  | [], s => .ok (s, true)
  | (fid, f) :: rest, s =>
    match step fid f s with
    | .error e => .error e
    | .ok (.stop s') => .ok (s', false)
    | .ok (.cont s') => runChildren step rest s'

/-- The body of RemoteDaemon::sync_dir (remote.rs lines 98-224) with the
recursive call abstracted: fetch the folder, soft-skip a vanished folder,
skip an unchanged subtree by stamp, list the children and run the loop. -/
def sync_dir_go (c : Client) (recur : String → FPath → WState → Except Err WState)
    (id : String) (dirPath : FPath) (s : WState) : Except Err WState :=
  match c.getFile id with
  | .error e => .error (.drive e)
  | .ok none => .ok { s with tr := s.tr ++ [.getFile id] }
  | .ok (some dirInfo) =>
    let s0 : WState := { s with tr := s.tr ++ [.getFile id] }
    match (match vGet s0.vmap id with
           | some e =>
             match dirInfo.version with
             | none => Except.error (Err.threadAbort "File.version unwrap")
             | some dv => Except.ok (decide (e.version = dv))
           | none => Except.ok false) with
    | .error e => .error e
    | .ok skip =>
      if skip then .ok s0
      else
        match c.listFiles id with
        | .error e => .error (.drive e)
        | .ok L =>
          let s1 : WState := { s0 with tr := s0.tr ++ [.listChildren id] }
          match collectFiles L [] with
          | .error e => .error e
          | .ok ps =>
            match runChildren (processChild c recur id dirPath) ps s1 with
            | .error e => .error e
            | .ok (s', _) => .ok s'

/-- RemoteDaemon::sync_dir with fuel making the remote recursion total. -/
def sync_dir (c : Client) : Nat → String → FPath → WState → Except Err WState
  | 0, _, _, _ => .error .fuel
  | fuel + 1, id, dirPath, s => sync_dir_go c (sync_dir c fuel) id dirPath s

/-- The configuration a RemoteDaemon carries (remote.rs lines 19-25): the
remote root folder id and the configured local root directory. -/
structure RemoteDaemon where
  remote_dir_id : String
  local_dir : String

/-- The outcome of one RemoteDaemon::sync cycle.  persisted is the content
of the on-disk version file after the cycle (the versions store, whose
source is not in this excerpt, is modelled from spec section 4.1: load
returns the persisted mapping, save overwrites it wholesale).  fsAfter is
the filesystem when the walk succeeded (a failed walk leaves partial
mutations that the model does not track through the error).  clientHeld
and versionsHeld report whether the shared session and version-store
locks are still held when sync returns; Rust MutexGuard drop releases
them on every exit path. -/
structure SyncOut where
  res : Except Err Bool
  persisted : VMap
  fsAfter : Option FS
  events : List Event
  clientHeld : Bool
  versionsHeld : Bool

/-- RemoteDaemon::sync (remote.rs lines 56-96).  reauthOk is the outcome
of auth::util::update_for_shared_client, which is not in this excerpt and
is modelled from spec section 4.2: reauthorize replaces the session in
place and returns success or failure.  On a successful walk the mapping
is persisted and the cycle reports completed; on an authorization failure
of the walk the daemon reauthorizes, persists nothing and reports not
completed when reauthorization succeeds, or fails fatally when it does
not; a thread abort (Rust unwrap failure) propagates as such; every other
failure is wrapped fatally. -/
def RemoteDaemon.sync (d : RemoteDaemon) (c : Client) (reauthOk : Bool)
    (fuel : Nat) (persisted : VMap) (fs0 : FS) : SyncOut :=
  match sync_dir c fuel d.remote_dir_id (splitPath d.local_dir) ⟨persisted, fs0, []⟩ with
  | .ok s' => ⟨.ok true, s'.vmap, some s'.fs, s'.tr ++ [.saveVersions], false, false⟩
  | .error (.drive .unauthorized) =>
    if reauthOk then ⟨.ok false, persisted, none, [.reauthorize], false, false⟩
    else ⟨.error (.msg "reauthorize failed"), persisted, none, [], false, false⟩
  | .error (.threadAbort m) =>
    ⟨.error (.threadAbort m), persisted, none, [], false, false⟩
  | .error _ =>
    ⟨.error (.msg "Unable to get updates from remote"), persisted, none, [], false, false⟩

/-- One observable event of the daemon run loop. -/
inductive LoopEv where
  | syncCall (i : Nat)
  | sleep (secs : Nat)
deriving DecidableEq

/-- RemoteDaemon::start_sync_loop (remote.rs lines 42-52), with the i-th
iteration's sync outcome given by syncOut and the infinite loop cut off by
fuel.  Returns the event trace and the fatal error if the loop exited. -/
def start_sync_loop (syncOut : Nat → Except Err Bool) :
    Nat → Nat → List LoopEv × Option Err
  | 0, _ => ([], none)
  | fuel + 1, i =>
    match syncOut i with
    | .ok true =>
      let r := start_sync_loop syncOut fuel (i + 1)
      (LoopEv.syncCall i :: LoopEv.sleep 10 :: r.1, r.2)
    | .ok false =>
      let r := start_sync_loop syncOut fuel (i + 1)
      (LoopEv.syncCall i :: r.1, r.2)
    | .error e => ([LoopEv.syncCall i], some e)

/-- How a joined daemon thread ended: a panic (the outer Err of Rust
thread join), or normal completion of the closure with its Result. -/
inductive ThreadOutcome where
  | panicked (msg : String)
  | finished (r : Except String Unit)

/-- The join loop of sync::run (sync/mod.rs lines 77-84): for each spawned
thread, t.join() is an Err exactly when the thread panicked, and only
that outer Err is checked by the code. -/
def joinThreads : List (String × ThreadOutcome) → Except String Unit
  | [] => .ok ()
  | (name, .panicked _) :: _ =>
    .error ("Fatal error in a thread " ++ name)
  | (_, .finished _) :: rest => joinThreads rest

/-- The names of the three daemon threads sync::run spawns
(sync/mod.rs lines 44-49). -/
def spawnedThreadNames : List String := ["remote", "local", "tray"]

/-! Concrete fixtures used by witnesses and counterexamples. -/

/-- Sync outcomes exercising all three run-loop cases. -/
def exSyncOut : Nat → Except Err Bool :=
  fun n => if n = 0 then .ok false else if n = 1 then .ok true
           else .error (.msg "boom")

/-- A remote folder record. -/
def exDirInfo : File :=
  ⟨some "d", some "drive", some folderMime, some "dv", none, some false⟩

/-- A client whose every metadata call reports the folder exDirInfo. -/
def exClientSkip : Client :=
  ⟨fun _ => .ok (some exDirInfo), fun _ => .ok [], fun _ => .ok []⟩

/-- A version entry recording the stamp of exDirInfo at the root. -/
def exSkipEntry : Version := ⟨["root"], "dv", none, "p", true⟩

/-- A filesystem holding one root directory and one file under it. -/
def exFs : FS :=
  ⟨[(["root"], FNode.dir), (["root", "old"], FNode.file [1])]⟩

/-- A remote file reported under its parent with an unchanged stamp but a
new name, so the path implied by the traversal differs from the recorded
one while still lying under the traversal directory. -/
def exRelocFile : File :=
  ⟨some "X", some "new", some "text/plain", some "1", some "h", some false⟩

/-- The mapping recording exRelocFile at the stale path root/old. -/
def exRelocMap : VMap :=
  [("X", ⟨["root", "old"], "1", some "h", "d", false⟩)]

/-- Client for the relocation counterexample: the folder d lists only
exRelocFile. -/
def exClientReloc : Client :=
  ⟨fun i => if i = "d" then .ok (some exDirInfo) else .ok none,
   fun i => if i = "d" then .ok [exRelocFile] else .ok [],
   fun _ => .ok []⟩

/-- An entry not lying under the traversal directory sub. -/
def exOutsideEntry : Version := ⟨["root", "old"], "1", some "h", "d", false⟩

/-- A client whose every metadata call reports an authorization failure. -/
def exClientUnauthorized : Client :=
  ⟨fun _ => .error .unauthorized, fun _ => .error .unauthorized,
   fun _ => .error .unauthorized⟩

/-- A new remote file whose content download reports an authorization
failure. -/
def exDlFile : File :=
  ⟨some "f", some "a.txt", some "text/plain", some "v1", some "h", some false⟩

/-- Client for the download counterexample: listing the root reports the
new file exDlFile, and downloading it fails with an authorization
failure. -/
def exClientDlUnauthorized : Client :=
  ⟨fun i => if i = "r" then .ok (some exDirInfo) else .ok none,
   fun i => if i = "r" then .ok [exDlFile] else .ok [],
   fun _ => .error .unauthorized⟩

/-- The filesystem holding just the local root directory. -/
def exRootFs : FS := ⟨[(["root"], FNode.dir)]⟩

/-- A remote file whose name contains a path separator. -/
def exSlashFile : File :=
  ⟨some "x", some "a/b", some "text/plain", some "v1", some "h", some false⟩

/-- A sibling listed after the slash-named file. -/
def exAfterFile : File :=
  ⟨some "z", some "z.txt", some "text/plain", some "v2", some "h2", some false⟩

/-- Client for the malformed-name witness: the folder d lists the
slash-named file followed by an ordinary sibling. -/
def exClientSlash : Client :=
  ⟨fun i => if i = "d" then .ok (some exDirInfo) else .ok none,
   fun i => if i = "d" then .ok [exSlashFile, exAfterFile] else .ok [],
   fun _ => .ok [9]⟩

/-- A remote file reported trashed whose stamp equals the recorded one. -/
def exTrashedSameStamp : File :=
  ⟨some "X", some "old", some "text/plain", some "1", some "h", some true⟩

/-- Client for the trash-removal counterexample: the folder d lists only
the trashed file with an unchanged stamp. -/
def exClientTrashSame : Client :=
  ⟨fun i => if i = "d" then .ok (some exDirInfo) else .ok none,
   fun i => if i = "d" then .ok [exTrashedSameStamp] else .ok [],
   fun _ => .ok []⟩

/-- A remote file reported trashed with a changed version stamp. -/
def exTrashedChanged : File :=
  ⟨some "X", some "old", some "text/plain", some "2", some "h", some true⟩

/-- Client for the trash-removal witness: the folder d lists only the
trashed, stamp-changed file. -/
def exClientTrashChanged : Client :=
  ⟨fun i => if i = "d" then .ok (some exDirInfo) else .ok none,
   fun i => if i = "d" then .ok [exTrashedChanged] else .ok [],
   fun _ => .ok []⟩

/-- The state after the trash-removal walk: entry gone, file gone. -/
def exTrashOutState : WState :=
  ⟨[], ⟨[(["root"], FNode.dir)]⟩,
   [Event.getFile "d", Event.listChildren "d", Event.removeFile ["root", "old"]]⟩

/-- A remote file reported without a mime type. -/
def exFileNoMime : File :=
  ⟨some "x", some "x.txt", none, some "v1", some "h", some false⟩

/-- Client for the missing-metadata abort input: the listing of d reports
a file with no mime type, whose unchecked unwrap aborts the walk. -/
def exClientNoMime : Client :=
  ⟨fun i => if i = "d" then .ok (some exDirInfo) else .ok none,
   fun i => if i = "d" then .ok [exFileNoMime] else .ok [],
   fun _ => .ok []⟩

/-! Predicates used to state the metadata-totality and idempotence
claims. -/

/-- All the metadata fields the walk unwraps are present. -/
def AllSome (f : File) : Prop :=
  f.id.isSome ∧ f.name.isSome ∧ f.mime_type.isSome ∧
    f.version.isSome ∧ f.trashed.isSome

/-- The precondition of the totality claim: every remote object the
client reports carries all metadata fields, and every content download
succeeds. -/
def WFClient (c : Client) : Prop :=
  (∀ id f, c.getFile id = .ok (some f) → AllSome f) ∧
  (∀ id L, c.listFiles id = .ok L → ∀ f ∈ L, AllSome f) ∧
  (∀ id, ∃ b, c.downloadFile id = .ok b)

/-- The computation never ends in the thread-killing abort that models a
Rust unwrap failure. -/
def abortFree {α : Type} (r : Except Err α) : Prop :=
  ∀ m, r ≠ .error (.threadAbort m)

/-- The id-keyed children map the walk builds for a folder (empty when
listing or map-building fails; the walk errors out in those cases). -/
def dedupOf (c : Client) (id : String) : List (String × File) :=
  match c.listFiles id with
  | .ok L =>
    match collectFiles L [] with
    | .ok ps => ps
    | .error _ => []
  | .error _ => []

/-- An over-approximation of the mapping keys a walk of the folder id can
touch within the given fuel: the ids of its children map, recursively. -/
def touchedIds (c : Client) : Nat → String → List String
  | 0, _ => []
  | fuel + 1, id =>
    (dedupOf c id).map (fun p => p.1) ++
      (dedupOf c id).flatMap (fun p => touchedIds c fuel p.1)

/-- The remote store's documented id-uniqueness invariant (spec section
3): an object id determines the folder whose children map contains it. -/
def UniqueIds (c : Client) : Prop :=
  ∀ p q kf f kg g, (kf, f) ∈ dedupOf c p → (kg, g) ∈ dedupOf c q →
    kf = kg → p = q

/-- The remote store's hierarchy invariant: a rank function witnesses
that children are strictly deeper than their parent folder, so the
listing-reachable structure is acyclic. -/
def Ranked (c : Client) (rank : String → Nat) : Prop :=
  ∀ p k f, (k, f) ∈ dedupOf c p → rank p < rank k

/-- The state carried by a loop-step result. -/
def stepState : StepRes → WState
  | .cont s => s
  | .stop s => s

/-! Helper lemmas about the association-list operations. -/

theorem find?_filter_key {α β : Type} [DecidableEq α] (l : List (α × β))
    (Q : α → Bool) (q : α) :
    ((l.filter (fun e => Q e.1)).find? (fun e => e.1 = q)) =
      if Q q then l.find? (fun e => e.1 = q) else none := by
  induction l with
  | nil => simp
  | cons e l ih =>
    by_cases hq : Q e.1
    · by_cases he : e.1 = q
      · subst he; simp [List.filter_cons, List.find?, hq]
      · simp [List.filter_cons, List.find?, hq, he, ih]
    · by_cases he : e.1 = q
      · subst he; simp [List.filter_cons, List.find?, hq, ih]
      · simp [List.filter_cons, List.find?, hq, he, ih]

theorem vGet_vRemove (m : VMap) (k q : String) :
    vGet (vRemove m k) q = if q = k then none else vGet m q := by
  unfold vGet vRemove
  have h := find?_filter_key (β := Version) m (fun a => ¬ a = k) q
  simp only [decide_not] at h ⊢
  rw [h]
  by_cases hq : q = k <;> simp [hq]

theorem vGet_vInsert_self (m : VMap) (k : String) (v : Version) :
    vGet (vInsert m k v) k = some v := by
  simp [vGet, vInsert, List.find?]

theorem vGet_vInsert_ne (m : VMap) (k q : String) (v : Version) (h : q ≠ k) :
    vGet (vInsert m k v) q = vGet m q := by
  simp only [vGet, vInsert, List.find?]
  have hne : (decide ((k, v).1 = q)) = false := decide_eq_false (Ne.symm h)
  simp only [hne]
  have h2 := vGet_vRemove m k q
  simp only [vGet] at h2
  simp [h2, h]

theorem vRemove_of_not_mem (m : VMap) (k : String) (h : vGet m k = none) :
    vRemove m k = m := by
  unfold vRemove
  rw [List.filter_eq_self]
  intro e he
  have h' : m.find? (fun e => decide (e.1 = k)) = none := by
    simp only [vGet] at h
    exact Option.map_eq_none'.mp h
  rw [List.find?_eq_none] at h'
  have := h' e he
  simpa using this

theorem vGet_eq_none_of_find (m : VMap) (k : String)
    (h : m.find? (fun e => e.1 = k) = none) : vGet m k = none := by
  simp [vGet, h]

theorem vGet_nil (q : String) : vGet [] q = none := rfl

theorem runChildren_append (step : String → File → WState → Except Err StepRes)
    (l1 l2 : List (String × File)) (s : WState) :
    runChildren step (l1 ++ l2) s =
      match runChildren step l1 s with
      | .error e => .error e
      | .ok (s', true) => runChildren step l2 s'
      | .ok (s', false) => .ok (s', false) := by
  induction l1 generalizing s with
  | nil => simp [runChildren]
  | cons e l ih =>
    obtain ⟨fid, f⟩ := e
    simp only [List.cons_append, runChildren]
    cases hstep : step fid f s with
    | error e => rfl
    | ok r => cases r with
      | stop s' => rfl
      | cont s' => exact ih s'

theorem FS.lookup_removeDirAll (fs : FS) (p : FPath) (fs' : FS)
    (h : fs.removeDirAll p = .ok fs') (q : FPath) :
    fs'.lookup q = if p.isPrefixOf q then none else fs.lookup q := by
  unfold FS.removeDirAll at h
  cases hl : fs.lookup p with
  | none => rw [hl] at h; cases h
  | some node =>
    cases node with
    | file b => rw [hl] at h; cases h
    | dir =>
      rw [hl] at h
      cases h
      show FS.lookup ⟨fs.entries.filter (fun e => ¬ p.isPrefixOf e.1)⟩ q = _
      unfold FS.lookup
      have hk := find?_filter_key (β := FNode) fs.entries
        (fun k => decide ¬ (p.isPrefixOf k = true)) q
      simp only [decide_not] at hk ⊢
      rw [hk]
      by_cases hp : p.isPrefixOf q = true <;> simp [hp]

theorem FS.lookup_removeFile (fs : FS) (p : FPath) (fs' : FS)
    (h : fs.removeFile p = .ok fs') (q : FPath) :
    fs'.lookup q = if q = p then none else fs.lookup q := by
  unfold FS.removeFile at h
  cases hl : fs.lookup p with
  | none => rw [hl] at h; cases h
  | some node =>
    cases node with
    | dir => rw [hl] at h; cases h
    | file b =>
      rw [hl] at h
      cases h
      show FS.lookup ⟨fs.entries.filter (fun e => ¬ e.1 = p)⟩ q = _
      unfold FS.lookup
      have hk := find?_filter_key (β := FNode) fs.entries
        (fun k => decide ¬ (k = p)) q
      simp only [decide_not] at hk ⊢
      rw [hk]
      by_cases hp : q = p <;> simp [hp]

/-- Unfolding of sync_dir when the folder exists, the stamp check does not
skip, and listing plus map-building succeed: the result is that of the
child loop run from the state whose trace records the two remote calls. -/
theorem sync_dir_unfold_list (c : Client) (fuel : Nat) (d : String) (dp : FPath)
    (s : WState) (di : File) (L : List File) (ps : List (String × File))
    (hg : c.getFile d = .ok (some di))
    (hnoskip : vGet s.vmap d = none ∨
      ∃ e dv, vGet s.vmap d = some e ∧ di.version = some dv ∧ e.version ≠ dv)
    (hl : c.listFiles d = .ok L)
    (hc : collectFiles L [] = .ok ps) :
    sync_dir c (fuel + 1) d dp s =
      match runChildren (processChild c (sync_dir c fuel) d dp) ps
        ⟨s.vmap, s.fs, s.tr ++ [Event.getFile d] ++ [Event.listChildren d]⟩ with
      | .error e => .error e
      | .ok (s', _) => .ok s' := by
  show sync_dir_go c (sync_dir c fuel) d dp s = _
  unfold sync_dir_go
  rcases hnoskip with hn | ⟨e, dv, he, hdv, hne⟩
  · simp only [hg, hn, hl, hc]
    rfl
  · simp only [hg, he, hdv, hl, hc, decide_eq_false hne]
    rfl

/-- The child-loop body at a child whose name contains a path separator
(and which is new or changed and not trashed): the loop stops, the
filesystem and the trace are left exactly as they were, and at most the
relocation edit of this child's own mapping entry has happened. -/
theorem processChild_slash_stop (c : Client)
    (recur : String → FPath → WState → Except Err WState)
    (pid : String) (dp : FPath) (fid : String) (f : File) (s : WState)
    (mt n : String)
    (hmime : f.mime_type = some mt) (hname : f.name = some n)
    (hslash : containsSlash n = true)
    (hnew : vGet s.vmap fid = none ∨
      ∃ l v, vGet s.vmap fid = some l ∧ f.version = some v ∧ l.version ≠ v)
    (htrash : f.trashed = some false) :
    ∃ m1, processChild c recur pid dp fid f s = .ok (.stop ⟨m1, s.fs, s.tr⟩) ∧
      ∀ k, k ≠ fid → vGet m1 k = vGet s.vmap k := by
  rcases hnew with hn | ⟨l, v, hl, hv, hne⟩
  · refine ⟨s.vmap, ?_, fun k _ => rfl⟩
    simp [processChild, applyRelocation, changedCheck, hmime, hn, hname,
      htrash, hslash]
  · by_cases hpref : dp.isPrefixOf l.path = true
    · refine ⟨s.vmap, ?_, fun k _ => rfl⟩
      simp [processChild, applyRelocation, changedCheck, hmime, hl, hpref,
        hv, hname, htrash, hslash, hne]
    · refine ⟨vInsert (vRemove s.vmap fid) fid { l with path := pathJoin dp n },
        ?_, fun k hk => ?_⟩
      · simp [processChild, applyRelocation, changedCheck, hmime, hl,
          Bool.of_not_eq_true hpref, hname, hv, htrash, hslash, hne]
      · rw [vGet_vInsert_ne _ _ _ _ hk, vGet_vRemove, if_neg hk]

/-! Claim theorems. -/

/-- C2: the claim says a daemon thread body finishing with a failure makes
the orchestrator's run return an error naming the thread.  The join loop
of sync::run checks only the outer Result of thread join, which is an
error exactly on a panic, so a thread body that finishes with an error
value is silently ignored and run reports success; only a panic is
reported as fatal.  This theorem evaluates the join loop at the failing
input and exhibits the divergence. -/
theorem joinThreads_ignores_body_error :
    joinThreads [("remote", ThreadOutcome.finished (Except.error "sync loop failed")),
                 ("local", ThreadOutcome.finished (Except.ok ())),
                 ("tray", ThreadOutcome.finished (Except.ok ()))] = .ok () ∧
    joinThreads [("remote", ThreadOutcome.panicked "boom")] =
      .error "Fatal error in a thread remote" :=
  ⟨rfl, rfl⟩

/-- C7: each iteration of the run loop calls sync; a not-completed outcome
re-enters sync immediately with no sleep event, a completed outcome emits
a fixed 10-second sleep before the next iteration, and a failure ends the
loop with that error as the fatal outcome. -/
theorem start_sync_loop_spec (syncOut : Nat → Except Err Bool)
    (fuel i : Nat) (e : Err) :
    (syncOut i = .ok false →
      start_sync_loop syncOut (fuel + 1) i =
        (LoopEv.syncCall i :: (start_sync_loop syncOut fuel (i + 1)).1,
         (start_sync_loop syncOut fuel (i + 1)).2)) ∧
    (syncOut i = .ok true →
      start_sync_loop syncOut (fuel + 1) i =
        (LoopEv.syncCall i :: LoopEv.sleep 10 ::
           (start_sync_loop syncOut fuel (i + 1)).1,
         (start_sync_loop syncOut fuel (i + 1)).2)) ∧
    (syncOut i = .error e →
      start_sync_loop syncOut (fuel + 1) i = ([LoopEv.syncCall i], some e)) := by
  refine ⟨fun h => ?_, fun h => ?_, fun h => ?_⟩ <;> simp [start_sync_loop, h]

/-- Witness for C7: the three run-loop cases at concrete iterations of
exSyncOut. -/
theorem start_sync_loop_spec_witness :
    start_sync_loop exSyncOut 3 0 =
      (LoopEv.syncCall 0 :: (start_sync_loop exSyncOut 2 1).1,
       (start_sync_loop exSyncOut 2 1).2) ∧
    start_sync_loop exSyncOut 2 1 =
      (LoopEv.syncCall 1 :: LoopEv.sleep 10 :: (start_sync_loop exSyncOut 1 2).1,
       (start_sync_loop exSyncOut 1 2).2) ∧
    start_sync_loop exSyncOut 1 2 = ([LoopEv.syncCall 2], some (Err.msg "boom")) :=
  ⟨(start_sync_loop_spec exSyncOut 2 0 (Err.msg "boom")).1 rfl,
   (start_sync_loop_spec exSyncOut 1 1 (Err.msg "boom")).2.1 rfl,
   (start_sync_loop_spec exSyncOut 0 2 (Err.msg "boom")).2.2 rfl⟩

/-- C4: when the mapping's recorded stamp for a folder equals the folder's
current remote stamp, sync_dir returns immediately after the single
metadata fetch: the trace gains only the getFile event (in particular no
child-listing call and no filesystem mutation), and the mapping and the
filesystem are returned unchanged. -/
theorem sync_dir_skip_by_stamp (c : Client) (fuel : Nat) (id : String)
    (dp : FPath) (s : WState) (di : File) (e : Version)
    (h1 : c.getFile id = .ok (some di))
    (h2 : vGet s.vmap id = some e)
    (h3 : di.version = some e.version) :
    sync_dir c (fuel + 1) id dp s = .ok { s with tr := s.tr ++ [Event.getFile id] } := by
  simp [sync_dir, sync_dir_go, h1, h2, h3]

/-- Witness for C4: the skip at a concrete client and mapping. -/
theorem sync_dir_skip_by_stamp_witness :
    sync_dir exClientSkip 4 "d" ["root"] ⟨[("d", exSkipEntry)], exFs, []⟩ =
      .ok ⟨[("d", exSkipEntry)], exFs, [Event.getFile "d"]⟩ :=
  sync_dir_skip_by_stamp exClientSkip 3 "d" ["root"]
    ⟨[("d", exSkipEntry)], exFs, []⟩ exDirInfo exSkipEntry rfl rfl rfl

/-- C9: remove_from_fs is a no-op success when the recorded path is
already absent; it deletes the object when present (recursively, for the
whole subtree, when the entry records a folder; exactly the one file
otherwise, other paths untouched); and it is idempotent: a second
application to the same entry returns the same filesystem unchanged and
succeeds. -/
theorem remove_from_fs_spec (v : Version) (fs : FS) :
    (FS.lookup fs v.path = none → remove_from_fs (some v) fs = .ok (fs, [])) ∧
    (v.is_folder = true → FS.lookup fs v.path = some FNode.dir →
      ∃ fs', remove_from_fs (some v) fs = .ok (fs', [Event.removeDirAll v.path]) ∧
        (∀ q, v.path.isPrefixOf q = true → FS.lookup fs' q = none) ∧
        (∀ q, v.path.isPrefixOf q = false → FS.lookup fs' q = FS.lookup fs q)) ∧
    (∀ b, v.is_folder = false → FS.lookup fs v.path = some (FNode.file b) →
      ∃ fs', remove_from_fs (some v) fs = .ok (fs', [Event.removeFile v.path]) ∧
        FS.lookup fs' v.path = none ∧
        ∀ q, q ≠ v.path → FS.lookup fs' q = FS.lookup fs q) ∧
    (∀ fs' ev, remove_from_fs (some v) fs = .ok (fs', ev) →
      remove_from_fs (some v) fs' = .ok (fs', [])) := by
  refine ⟨?_, ?_, ?_, ?_⟩
  · intro h
    simp [remove_from_fs, FS.existsP, h]
  · intro hf h
    have hrm : fs.removeDirAll v.path = .ok ⟨fs.entries.filter (fun e => ¬ v.path.isPrefixOf e.1)⟩ := by
      unfold FS.removeDirAll
      rw [h]
    refine ⟨⟨fs.entries.filter (fun e => ¬ v.path.isPrefixOf e.1)⟩, ?_, ?_, ?_⟩
    · simp [remove_from_fs, FS.existsP, h, hf, hrm]
    · intro q hq
      have := FS.lookup_removeDirAll fs v.path _ hrm q
      rw [this, if_pos hq]
    · intro q hq
      have := FS.lookup_removeDirAll fs v.path _ hrm q
      rw [this, hq]
      simp
  · intro b hf h
    have hrm : fs.removeFile v.path = .ok ⟨fs.entries.filter (fun e => ¬ e.1 = v.path)⟩ := by
      unfold FS.removeFile
      rw [h]
    refine ⟨⟨fs.entries.filter (fun e => ¬ e.1 = v.path)⟩, ?_, ?_, ?_⟩
    · simp [remove_from_fs, FS.existsP, h, hf, hrm]
    · have := FS.lookup_removeFile fs v.path _ hrm v.path
      rw [this, if_pos rfl]
    · intro q hq
      have := FS.lookup_removeFile fs v.path _ hrm q
      rw [this, if_neg hq]
  · intro fs' ev h
    unfold remove_from_fs at h ⊢
    dsimp only at h ⊢
    by_cases hex : fs.existsP v.path = true
    · rw [if_pos hex] at h
      by_cases hf : v.is_folder = true
      · rw [if_pos hf] at h
        cases hrm : fs.removeDirAll v.path with
        | error e => rw [hrm] at h; cases h
        | ok fsr =>
          rw [hrm] at h
          cases h
          have hlq := FS.lookup_removeDirAll fs v.path fs' hrm v.path
          rw [if_pos (by simp [List.isPrefixOf_iff_prefix])] at hlq
          simp [FS.existsP, hlq]
      · rw [if_neg hf] at h
        cases hrm : fs.removeFile v.path with
        | error e => rw [hrm] at h; cases h
        | ok fsr =>
          rw [hrm] at h
          cases h
          have hlq := FS.lookup_removeFile fs v.path fs' hrm v.path
          rw [if_pos rfl] at hlq
          simp [FS.existsP, hlq]
    · rw [if_neg hex] at h
      cases h
      rw [if_neg hex]

/-- Witness for C9: remove_from_fs at a concrete entry and filesystem. -/
theorem remove_from_fs_spec_witness :
    (FS.lookup exRootFs exOutsideEntry.path = none →
      remove_from_fs (some exOutsideEntry) exRootFs = .ok (exRootFs, [])) ∧
    (∀ b, exOutsideEntry.is_folder = false →
      FS.lookup exFs exOutsideEntry.path = some (FNode.file b) →
      ∃ fs', remove_from_fs (some exOutsideEntry) exFs =
          .ok (fs', [Event.removeFile exOutsideEntry.path]) ∧
        FS.lookup fs' exOutsideEntry.path = none ∧
        ∀ q, q ≠ exOutsideEntry.path → FS.lookup fs' q = FS.lookup exFs q) :=
  ⟨(remove_from_fs_spec exOutsideEntry exRootFs).1,
   (remove_from_fs_spec exOutsideEntry exFs).2.2.1⟩

/-- Counterexample for C8 as stated: a child whose recorded path differs
from the path implied by the current traversal (recorded root/old versus
implied root/new) but still lies under the traversal directory.  The code
tests starts_with, not path equality, so the walk leaves the whole
mapping unchanged: the recorded path is not updated. -/
theorem relocation_claim_counterexample :
    sync_dir exClientReloc 1 "d" ["root"] ⟨exRelocMap, exFs, []⟩ =
      .ok ⟨exRelocMap, exFs, [Event.getFile "d", Event.listChildren "d"]⟩ ∧
    (∃ l, vGet exRelocMap "X" = some l ∧
      exRelocFile.name = some "new" ∧
      l.path ≠ pathJoin ["root"] "new") := by
  refine ⟨by rfl, ⟨⟨["root", "old"], "1", some "h", "d", false⟩, rfl, rfl, by decide⟩⟩

/-- C8 amended: the walk updates the recorded path of an entry (leaving
every other field of that entry and every other mapping key unchanged,
and performing no filesystem operation at that point, the relocation step
being a pure mapping transformation) exactly when the recorded path does
not start with the current traversal directory; a recorded path that
merely differs from the implied path while still lying under the
traversal directory is left alone (see the counterexample). -/
theorem relocation_updates_only_path (dp : FPath) (fid : String) (f : File)
    (l : Version) (m : VMap) (n : String)
    (hpref : dp.isPrefixOf l.path = false) (hn : f.name = some n) :
    applyRelocation dp fid f (some l) m =
      .ok (vInsert (vRemove m fid) fid { l with path := pathJoin dp n }) ∧
    vGet (vInsert (vRemove m fid) fid { l with path := pathJoin dp n }) fid =
      some { l with path := pathJoin dp n } ∧
    (∀ k, k ≠ fid →
      vGet (vInsert (vRemove m fid) fid { l with path := pathJoin dp n }) k = vGet m k) := by
  refine ⟨?_, vGet_vInsert_self _ _ _, ?_⟩
  · simp [applyRelocation, hpref, hn]
  · intro k hk
    rw [vGet_vInsert_ne _ _ _ _ hk, vGet_vRemove, if_neg hk]

/-- Witness for C8 amended: an entry recorded outside the traversal
directory sub gets exactly its path replaced. -/
theorem relocation_updates_only_path_witness :
    applyRelocation ["sub"] "X" exRelocFile (some exOutsideEntry) exRelocMap =
      .ok (vInsert (vRemove exRelocMap "X") "X"
        { exOutsideEntry with path := pathJoin ["sub"] "new" }) ∧
    vGet (vInsert (vRemove exRelocMap "X") "X"
        { exOutsideEntry with path := pathJoin ["sub"] "new" }) "X" =
      some { exOutsideEntry with path := pathJoin ["sub"] "new" } ∧
    (∀ k, k ≠ "X" →
      vGet (vInsert (vRemove exRelocMap "X") "X"
        { exOutsideEntry with path := pathJoin ["sub"] "new" }) k = vGet exRelocMap k) :=
  relocation_updates_only_path ["sub"] "X" exRelocFile exOutsideEntry exRelocMap "new"
    (by decide) rfl

/-- Counterexample for C1 as stated: an authorization failure on the
content-download remote call does not trigger reauthorization and does
not make sync report completed = false; the Rust code unwraps the
download Result, so the cycle aborts the daemon thread.  The events list
is empty: no reauthorize call happened. -/
theorem sync_auth_claim_counterexample :
    (RemoteDaemon.sync ⟨"r", "root"⟩ exClientDlUnauthorized true 2 [] exRootFs).res =
      .error (.threadAbort "download_file unwrap") ∧
    (RemoteDaemon.sync ⟨"r", "root"⟩ exClientDlUnauthorized true 2 [] exRootFs).events =
      [] := by
  exact ⟨rfl, rfl⟩

/-- C1 amended: when a metadata remote call (folder fetch or child
listing, the two calls whose authorization failures the code catches)
fails with an authorization failure during the walk and the subsequent
reauthorization succeeds, sync triggers reauthorization, keeps the
on-disk version file exactly as it was (no save event, persisted mapping
unchanged, the cycle's in-memory edits discarded), releases both shared
resources, and reports completed = false. -/
theorem sync_auth_recovery (d : RemoteDaemon) (c : Client) (fuel : Nat)
    (persisted : VMap) (fs0 : FS)
    (hw : sync_dir c fuel d.remote_dir_id (splitPath d.local_dir)
      ⟨persisted, fs0, []⟩ = .error (.drive .unauthorized)) :
    d.sync c true fuel persisted fs0 =
      ⟨.ok false, persisted, none, [Event.reauthorize], false, false⟩ := by
  unfold RemoteDaemon.sync
  rw [hw]
  rfl

/-- Witness for C1 amended: a client whose metadata calls all report an
authorization failure. -/
theorem sync_auth_recovery_witness :
    RemoteDaemon.sync ⟨"r", "root"⟩ exClientUnauthorized true 1 [] exRootFs =
      ⟨.ok false, [], none, [Event.reauthorize], false, false⟩ :=
  sync_auth_recovery ⟨"r", "root"⟩ exClientUnauthorized 1 [] exRootFs rfl

/-- C6: when the walk of a directory reaches a child (new or changed, not
trashed) whose name contains a path separator, the walk of that directory
terminates early and reports success; the filesystem and the trace are
exactly those reached after the already-processed prefix of siblings (so
no filesystem mutation happens for that child or for the siblings not yet
processed, which are never examined), and at most the slash-named child's
own mapping entry was touched. -/
theorem sync_dir_slash_soft_stop (c : Client) (fuel : Nat) (d : String)
    (dp : FPath) (s : WState) (di : File) (L : List File)
    (pre post : List (String × File)) (fid : String) (f : File)
    (mt n : String) (s2 : WState)
    (hg : c.getFile d = .ok (some di))
    (hnoskip : vGet s.vmap d = none ∨
      ∃ e dv, vGet s.vmap d = some e ∧ di.version = some dv ∧ e.version ≠ dv)
    (hl : c.listFiles d = .ok L)
    (hc : collectFiles L [] = .ok (pre ++ (fid, f) :: post))
    (hrun : runChildren (processChild c (sync_dir c fuel) d dp) pre
      ⟨s.vmap, s.fs, s.tr ++ [Event.getFile d] ++ [Event.listChildren d]⟩ =
        .ok (s2, true))
    (hmime : f.mime_type = some mt) (hname : f.name = some n)
    (hslash : containsSlash n = true)
    (hnew : vGet s2.vmap fid = none ∨
      ∃ l v, vGet s2.vmap fid = some l ∧ f.version = some v ∧ l.version ≠ v)
    (htrash : f.trashed = some false) :
    ∃ m2, sync_dir c (fuel + 1) d dp s = .ok ⟨m2, s2.fs, s2.tr⟩ ∧
      ∀ k, k ≠ fid → vGet m2 k = vGet s2.vmap k := by
  obtain ⟨m1, hstep, hprop⟩ := processChild_slash_stop c (sync_dir c fuel) d dp
    fid f s2 mt n hmime hname hslash hnew htrash
  refine ⟨m1, ?_, hprop⟩
  rw [sync_dir_unfold_list c fuel d dp s di L _ hg hnoskip hl hc,
    runChildren_append, hrun]
  show (match runChildren _ ((fid, f) :: post) s2 with
        | Except.error e => Except.error e
        | Except.ok (s', _) => Except.ok s') = _
  unfold runChildren
  rw [hstep]

/-! Error classification of the filesystem operations: every failure is
an io error, never the thread-killing abort. -/

theorem FS.createDir_error_io (fs : FS) (p : FPath) (e : Err)
    (h : fs.createDir p = .error e) : ∃ m, e = .io m := by
  unfold FS.createDir at h
  split at h
  · cases h; exact ⟨_, rfl⟩
  · split at h
    · cases h
    · cases h; exact ⟨_, rfl⟩

theorem FS.removeFile_error_io (fs : FS) (p : FPath) (e : Err)
    (h : fs.removeFile p = .error e) : ∃ m, e = .io m := by
  unfold FS.removeFile at h
  split at h
  · cases h
  · cases h; exact ⟨_, rfl⟩

theorem FS.removeDirAll_error_io (fs : FS) (p : FPath) (e : Err)
    (h : fs.removeDirAll p = .error e) : ∃ m, e = .io m := by
  unfold FS.removeDirAll at h
  split at h
  · cases h
  · cases h; exact ⟨_, rfl⟩

theorem FS.rename_error_io (fs : FS) (a b : FPath) (e : Err)
    (h : fs.rename a b = .error e) : ∃ m, e = .io m := by
  unfold FS.rename at h
  repeat' split at h
  all_goals first
    | (cases h; exact ⟨_, rfl⟩)
    | cases h

theorem FS.writeFile_error_io (fs : FS) (p : FPath) (b : List Nat) (e : Err)
    (h : fs.writeFile p b = .error e) : ∃ m, e = .io m := by
  unfold FS.writeFile at h
  repeat' split at h
  all_goals first
    | (cases h; exact ⟨_, rfl⟩)
    | cases h

/-! The walk never produces the thread-killing abort when the client
reports complete metadata and downloads succeed. -/

theorem abortFree_applyRelocation (dp : FPath) (fid : String) (f : File)
    (loc : Option Version) (m : VMap) (hname : f.name.isSome) :
    abortFree (applyRelocation dp fid f loc m) := by
  intro msg h
  unfold applyRelocation at h
  cases loc with
  | none => cases h
  | some l =>
    dsimp only at h
    by_cases hp : dp.isPrefixOf l.path = true
    · rw [if_pos hp] at h; cases h
    · rw [if_neg hp] at h
      obtain ⟨n, hn⟩ := Option.isSome_iff_exists.mp hname
      rw [hn] at h
      cases h

theorem abortFree_changedCheck (loc : Option Version) (f : File)
    (hv : f.version.isSome) : abortFree (changedCheck loc f) := by
  intro msg h
  unfold changedCheck at h
  cases loc with
  | none => cases h
  | some l =>
    dsimp only at h
    obtain ⟨v, hvv⟩ := Option.isSome_iff_exists.mp hv
    rw [hvv] at h
    cases h

theorem abortFree_remove_from_fs (loc : Option Version) (fs : FS) :
    abortFree (remove_from_fs loc fs) := by
  intro msg h
  unfold remove_from_fs at h
  cases loc with
  | none => cases h
  | some l =>
    dsimp only at h
    by_cases hex : fs.existsP l.path = true
    · rw [if_pos hex] at h
      by_cases hfo : l.is_folder = true
      · rw [if_pos hfo] at h
        cases hrm : fs.removeDirAll l.path with
        | ok fs' => rw [hrm] at h; cases h
        | error e =>
          rw [hrm] at h
          cases h
          obtain ⟨m', hm⟩ := FS.removeDirAll_error_io fs l.path _ hrm
          simp at hm
      · rw [if_neg hfo] at h
        cases hrm : fs.removeFile l.path with
        | ok fs' => rw [hrm] at h; cases h
        | error e =>
          rw [hrm] at h
          cases h
          obtain ⟨m', hm⟩ := FS.removeFile_error_io fs l.path _ hrm
          simp at hm
    · rw [if_neg hex] at h; cases h

theorem abortFree_save_file (c : Client) (f : File) (p : FPath) (fs : FS)
    (hid : f.id.isSome) (hdl : ∀ i, ∃ b, c.downloadFile i = .ok b) :
    abortFree (save_file c f p fs) := by
  intro msg h
  obtain ⟨i, hi⟩ := Option.isSome_iff_exists.mp hid
  unfold save_file at h
  rw [hi] at h
  dsimp only at h
  obtain ⟨b, hb⟩ := hdl i
  rw [hb] at h
  dsimp only at h
  cases hw : fs.writeFile p b with
  | ok fs' => rw [hw] at h; cases h
  | error e =>
    rw [hw] at h
    cases h
    obtain ⟨m', hm⟩ := FS.writeFile_error_io fs p b _ hw
    simp at hm

theorem abortFree_renameIfMoved (bailMsg : Bool) (loc : Option Version)
    (filePath : FPath) (fs : FS) :
    abortFree (renameIfMoved bailMsg loc filePath fs) := by
  intro msg h
  unfold renameIfMoved at h
  cases loc with
  | none => cases h
  | some l =>
    dsimp only at h
    by_cases hne : l.path ≠ filePath
    · rw [if_pos hne] at h
      cases hr : fs.rename l.path filePath with
      | ok fs' => rw [hr] at h; cases h
      | error e =>
        rw [hr] at h
        obtain ⟨m', hm⟩ := FS.rename_error_io fs l.path filePath _ hr
        subst hm
        cases bailMsg with
        | true => simp at h
        | false => simp at h
    · rw [if_neg hne] at h; cases h

theorem abortFree_ensureDir (fs : FS) (p : FPath) :
    abortFree (ensureDir fs p) := by
  intro msg h
  unfold ensureDir at h
  split at h
  · cases hc : fs.createDir p with
    | ok fs2 => rw [hc] at h; cases h
    | error e =>
      rw [hc] at h
      cases h
      obtain ⟨m', hm⟩ := FS.createDir_error_io fs p _ hc
      simp at hm
  · cases h

theorem abortFree_maybeDownload (c : Client) (f : File) (loc : Option Version)
    (dp : FPath) (name : String) (fs : FS)
    (hid : f.id.isSome) (hdl : ∀ i, ∃ b, c.downloadFile i = .ok b) :
    abortFree (maybeDownload c f loc dp name fs) := by
  intro msg h
  unfold maybeDownload at h
  cases loc with
  | none => exact abortFree_save_file c f _ fs hid hdl msg h
  | some l =>
    dsimp only at h
    by_cases hm : l.md5 ≠ f.md5
    · rw [if_pos hm] at h
      exact abortFree_save_file c f _ fs hid hdl msg h
    · rw [if_neg hm] at h
      cases h

/-! Lemmas about the children map built from a listing. -/

theorem mem_assocInsert (l : List (String × File)) (k : String) (f : File) :
    ∀ pr ∈ assocInsert l k f, pr ∈ l ∨ pr = (k, f) := by
  intro pr hpr
  unfold assocInsert at hpr
  split at hpr
  · obtain ⟨e, he, heq⟩ := List.mem_map.mp hpr
    by_cases hek : e.1 = k
    · right
      rw [if_pos hek] at heq
      exact heq.symm
    · left
      rw [if_neg hek] at heq
      exact heq ▸ he
  · rcases List.mem_append.mp hpr with h1 | h2
    · left; exact h1
    · right; simpa using h2

theorem collectFiles_sound (L : List File) :
    ∀ acc ps, collectFiles L acc = .ok ps →
      ∀ pr ∈ ps, pr ∈ acc ∨ (pr.2 ∈ L ∧ pr.2.id = some pr.1) := by
  induction L with
  | nil =>
    intro acc ps h pr hpr
    cases h
    left
    exact hpr
  | cons f rest ih =>
    intro acc ps h pr hpr
    unfold collectFiles at h
    cases hid : f.id with
    | none => rw [hid] at h; cases h
    | some i =>
      rw [hid] at h
      rcases ih (assocInsert acc i f) ps h pr hpr with hacc | ⟨hmem, hp⟩
      · rcases mem_assocInsert acc i f pr hacc with h1 | h2
        · left; exact h1
        · right
          subst h2
          exact ⟨List.mem_cons_self f rest, hid⟩
      · right
        exact ⟨List.mem_cons_of_mem f hmem, hp⟩

theorem collectFiles_ok (L : List File) (hids : ∀ f ∈ L, f.id.isSome) :
    ∀ acc, ∃ ps, collectFiles L acc = .ok ps := by
  induction L with
  | nil => intro acc; exact ⟨acc, rfl⟩
  | cons f rest ih =>
    intro acc
    obtain ⟨i, hi⟩ := Option.isSome_iff_exists.mp (hids f (List.mem_cons_self f rest))
    obtain ⟨ps, hps⟩ := ih (fun g hg => hids g (List.mem_cons_of_mem f hg)) (assocInsert acc i f)
    refine ⟨ps, ?_⟩
    unfold collectFiles
    rw [hi]
    exact hps

theorem abortFree_processChild (c : Client)
    (recur : String → FPath → WState → Except Err WState)
    (pid : String) (dp : FPath) (fid : String) (f : File) (s : WState)
    (hall : AllSome f)
    (hdl : ∀ i, ∃ b, c.downloadFile i = .ok b)
    (hrec : ∀ i p t, abortFree (recur i p t)) :
    abortFree (processChild c recur pid dp fid f s) := by
  intro msg h
  obtain ⟨hid, hnm, hmt, hv, htr⟩ := hall
  obtain ⟨mt, hmt'⟩ := Option.isSome_iff_exists.mp hmt
  obtain ⟨nm, hnm'⟩ := Option.isSome_iff_exists.mp hnm
  obtain ⟨tv, htr'⟩ := Option.isSome_iff_exists.mp htr
  obtain ⟨vv, hv'⟩ := Option.isSome_iff_exists.mp hv
  unfold processChild at h
  rw [hmt'] at h
  dsimp only at h
  cases hrel : applyRelocation dp fid f (vGet s.vmap fid) s.vmap with
  | error e =>
    rw [hrel] at h
    cases h
    exact abortFree_applyRelocation dp fid f _ s.vmap hnm msg hrel
  | ok m1 =>
    rw [hrel] at h
    dsimp only at h
    cases hch : changedCheck (vGet s.vmap fid) f with
    | error e =>
      rw [hch] at h
      cases h
      exact abortFree_changedCheck _ f hv msg hch
    | ok changed =>
      rw [hch] at h
      dsimp only at h
      cases changed with
      | false => rw [if_neg Bool.false_ne_true] at h; cases h
      | true =>
        rw [if_pos rfl] at h
        rw [hnm'] at h
        dsimp only at h
        rw [htr'] at h
        dsimp only at h
        cases tv with
        | true =>
          rw [if_pos rfl] at h
          cases hrm : remove_from_fs (vGet s.vmap fid) s.fs with
          | error e =>
            rw [hrm] at h
            cases h
            exact abortFree_remove_from_fs _ _ msg hrm
          | ok pr =>
            rw [hrm] at h
            obtain ⟨fs', ev⟩ := pr
            cases h
        | false =>
          rw [if_neg Bool.false_ne_true] at h
          by_cases hsl : containsSlash nm = true
          · rw [if_pos hsl] at h; cases h
          · rw [if_neg hsl] at h
            by_cases hfo : mt = folderMime
            · rw [if_pos hfo] at h
              cases hrn : renameIfMoved true (vGet s.vmap fid) (pathJoin dp nm) s.fs with
              | error e =>
                rw [hrn] at h
                cases h
                exact abortFree_renameIfMoved true _ _ s.fs msg hrn
              | ok pr1 =>
                rw [hrn] at h
                obtain ⟨fs1, ev1⟩ := pr1
                dsimp only at h
                cases hed : ensureDir fs1 (pathJoin dp nm) with
                | error e =>
                  rw [hed] at h
                  cases h
                  exact abortFree_ensureDir fs1 _ msg hed
                | ok pr2 =>
                  rw [hed] at h
                  obtain ⟨fs2, ev2⟩ := pr2
                  dsimp only at h
                  cases hrc : recur fid (pathJoin dp nm) ⟨m1, fs2, s.tr ++ ev1 ++ ev2⟩ with
                  | error e =>
                    rw [hrc] at h
                    cases h
                    exact hrec fid _ _ msg hrc
                  | ok s3 =>
                    rw [hrc] at h
                    dsimp only at h
                    rw [hv'] at h
                    cases h
            · rw [if_neg hfo] at h
              cases hmd : maybeDownload c f (vGet s.vmap fid) dp nm s.fs with
              | error e =>
                rw [hmd] at h
                cases h
                exact abortFree_maybeDownload c f _ dp nm s.fs hid hdl msg hmd
              | ok pr1 =>
                rw [hmd] at h
                obtain ⟨fs1, ev1⟩ := pr1
                dsimp only at h
                cases hrn : renameIfMoved false (vGet s.vmap fid) (pathJoin dp nm) fs1 with
                | error e =>
                  rw [hrn] at h
                  cases h
                  exact abortFree_renameIfMoved false _ _ fs1 msg hrn
                | ok pr2 =>
                  rw [hrn] at h
                  obtain ⟨fs2, ev2⟩ := pr2
                  dsimp only at h
                  rw [hv'] at h
                  cases h

theorem abortFree_runChildren (step : String → File → WState → Except Err StepRes)
    (ps : List (String × File))
    (hstep : ∀ fid f t, (fid, f) ∈ ps → abortFree (step fid f t)) :
    ∀ s, abortFree (runChildren step ps s) := by
  induction ps with
  | nil => intro s msg h; cases h
  | cons pr rest ih =>
    intro s msg h
    obtain ⟨fid, f⟩ := pr
    unfold runChildren at h
    cases hs : step fid f s with
    | error e =>
      rw [hs] at h
      cases h
      exact hstep fid f s (List.mem_cons_self _ _) msg hs
    | ok r =>
      rw [hs] at h
      cases r with
      | stop s' => cases h
      | cont s' =>
        exact ih (fun fid' f' t hm => hstep fid' f' t (List.mem_cons_of_mem _ hm)) s' msg h

theorem abortFree_sync_dir (c : Client) (hwf : WFClient c) :
    ∀ fuel id dp s, abortFree (sync_dir c fuel id dp s) := by
  intro fuel
  induction fuel with
  | zero => intro id dp s msg h; cases h
  | succ n ih =>
    intro id dp s msg h
    obtain ⟨hgf, hlf, hdl⟩ := hwf
    rw [show sync_dir c (n + 1) id dp s = sync_dir_go c (sync_dir c n) id dp s from rfl] at h
    unfold sync_dir_go at h
    cases hg : c.getFile id with
    | error e => rw [hg] at h; cases h
    | ok od =>
      rw [hg] at h
      cases od with
      | none => cases h
      | some di =>
        dsimp only at h
        have hlist : ∀ (hL : Except Err WState)
            (hh : (match c.listFiles id with
                   | .error e => Except.error (Err.drive e)
                   | .ok L =>
                     match collectFiles L [] with
                     | .error e => Except.error e
                     | .ok ps =>
                       match runChildren (processChild c (sync_dir c n) id dp) ps
                         ⟨s.vmap, s.fs, (s.tr ++ [Event.getFile id]) ++ [Event.listChildren id]⟩ with
                       | .error e => Except.error e
                       | .ok (s', _) => Except.ok s') =
              Except.error (Err.threadAbort msg)), False := by
          intro hL hh
          cases hls : c.listFiles id with
          | error e => rw [hls] at hh; cases hh
          | ok L =>
            rw [hls] at hh
            dsimp only at hh
            have hids : ∀ g ∈ L, g.id.isSome := fun g hgm => (hlf id L hls g hgm).1
            obtain ⟨ps, hps⟩ := collectFiles_ok L hids []
            rw [hps] at hh
            dsimp only at hh
            cases hr : runChildren (processChild c (sync_dir c n) id dp) ps
                ⟨s.vmap, s.fs, (s.tr ++ [Event.getFile id]) ++ [Event.listChildren id]⟩ with
            | error e =>
              rw [hr] at hh
              cases hh
              refine abortFree_runChildren _ ps ?_ _ msg hr
              intro fid f t hm
              have hfl : f ∈ L := by
                rcases collectFiles_sound L [] ps hps (fid, f) hm with h0 | ⟨hmem, _⟩
                · cases h0
                · exact hmem
              exact abortFree_processChild c _ id dp fid f t (hlf id L hls f hfl) hdl
                (fun i p t => ih i p t)
            | ok pr =>
              rw [hr] at hh
              obtain ⟨s', b⟩ := pr
              cases hh
        cases hvg : vGet s.vmap id with
        | none =>
          rw [hvg] at h
          dsimp only at h
          rw [if_neg Bool.false_ne_true] at h
          exact hlist (Except.error (Err.threadAbort msg)) h
        | some e0 =>
          rw [hvg] at h
          dsimp only at h
          cases hdv : di.version with
          | none =>
            have hsome := (hgf id di hg).2.2.2.1
            rw [hdv] at hsome
            cases hsome
          | some dv =>
            rw [hdv] at h
            dsimp only at h
            by_cases hsk : decide (e0.version = dv) = true
            · rw [if_pos hsk] at h
              cases h
            · rw [if_neg hsk] at h
              exact hlist (Except.error (Err.threadAbort msg)) h

/-- C10: totality of the walk relative to remote metadata.  First part:
whenever every remote object the client reports carries all the unwrapped
metadata fields (id, name, mime type, version stamp, trashed flag) and
every content download succeeds, no run of sync_dir ends in the
thread-killing abort that models a Rust unwrap failure: under the
precondition every abort branch is unreachable.  Second part: dropping
any of it makes the walk abort — concretely, a listed child with a
missing mime type aborts the walk (and with it the daemon thread) instead
of producing an error value of the walk's failure taxonomy. -/
theorem sync_dir_metadata_totality :
    (∀ (c : Client), WFClient c →
      ∀ (fuel : Nat) (id : String) (dp : FPath) (s : WState) (m : String),
        sync_dir c fuel id dp s ≠ .error (.threadAbort m)) ∧
    sync_dir exClientNoMime 1 "d" ["root"] ⟨[], exRootFs, []⟩ =
      .error (.threadAbort "File.mime_type unwrap") := by
  constructor
  · intro c hwf fuel id dp s m
    exact abortFree_sync_dir c hwf fuel id dp s m
  · rfl

/-- Witness for C10: the no-abort statement applied to a concrete
well-formed client. -/
theorem sync_dir_metadata_totality_witness :
    sync_dir exClientSkip 2 "q" ["root"] ⟨[], exRootFs, []⟩ ≠
      .error (.threadAbort "File.version unwrap") := by
  have hwf : WFClient exClientSkip := by
    refine ⟨?_, ?_, ?_⟩
    · intro i f h
      cases h
      simp [AllSome, exDirInfo]
    · intro i L hL f hf
      cases hL
      cases hf
    · intro i
      exact ⟨[], rfl⟩
  exact sync_dir_metadata_totality.1 exClientSkip hwf 2 "q" ["root"]
    ⟨[], exRootFs, []⟩ "File.version unwrap"

/-! Frame lemmas: a walk of one folder can change mapping keys only among
the ids of the children maps it reaches. -/

theorem frame_applyRelocation (dp : FPath) (fid : String) (f : File)
    (loc : Option Version) (m m1 : VMap)
    (h : applyRelocation dp fid f loc m = .ok m1) :
    ∀ k, k ≠ fid → vGet m1 k = vGet m k := by
  intro k hk
  unfold applyRelocation at h
  cases loc with
  | none => cases h; rfl
  | some l =>
    dsimp only at h
    by_cases hp : dp.isPrefixOf l.path = true
    · rw [if_pos hp] at h; cases h; rfl
    · rw [if_neg hp] at h
      cases hn : f.name with
      | none => rw [hn] at h; cases h
      | some n =>
        rw [hn] at h
        cases h
        rw [vGet_vInsert_ne _ _ _ _ hk, vGet_vRemove, if_neg hk]

theorem frame_processChild (c : Client)
    (recur : String → FPath → WState → Except Err WState)
    (pid : String) (dp : FPath) (fid : String) (f : File) (s : WState)
    (r : StepRes) (T : String → List String)
    (hrec : ∀ i p t u, recur i p t = .ok u →
      ∀ k, k ∉ T i → vGet u.vmap k = vGet t.vmap k)
    (h : processChild c recur pid dp fid f s = .ok r) :
    ∀ k, k ≠ fid → k ∉ T fid → vGet (stepState r).vmap k = vGet s.vmap k := by
  intro k hk hkT
  unfold processChild at h
  cases hmt : f.mime_type with
  | none => rw [hmt] at h; cases h
  | some mt =>
    rw [hmt] at h
    dsimp only at h
    cases hrel : applyRelocation dp fid f (vGet s.vmap fid) s.vmap with
    | error e => rw [hrel] at h; cases h
    | ok m1 =>
      rw [hrel] at h
      dsimp only at h
      have hm1 : vGet m1 k = vGet s.vmap k :=
        frame_applyRelocation dp fid f _ s.vmap m1 hrel k hk
      cases hch : changedCheck (vGet s.vmap fid) f with
      | error e => rw [hch] at h; cases h
      | ok changed =>
        rw [hch] at h
        dsimp only at h
        cases changed with
        | false =>
          rw [if_neg Bool.false_ne_true] at h
          cases h
          exact hm1
        | true =>
          rw [if_pos rfl] at h
          cases hnm : f.name with
          | none => rw [hnm] at h; cases h
          | some nm =>
            rw [hnm] at h
            dsimp only at h
            cases htr : f.trashed with
            | none => rw [htr] at h; cases h
            | some tv =>
              rw [htr] at h
              dsimp only at h
              cases tv with
              | true =>
                rw [if_pos rfl] at h
                cases hrm : remove_from_fs (vGet s.vmap fid) s.fs with
                | error e => rw [hrm] at h; cases h
                | ok pr =>
                  rw [hrm] at h
                  obtain ⟨fs', ev⟩ := pr
                  cases h
                  show vGet (vRemove m1 fid) k = _
                  rw [vGet_vRemove, if_neg hk]
                  exact hm1
              | false =>
                rw [if_neg Bool.false_ne_true] at h
                by_cases hsl : containsSlash nm = true
                · rw [if_pos hsl] at h
                  cases h
                  exact hm1
                · rw [if_neg hsl] at h
                  by_cases hfo : mt = folderMime
                  · rw [if_pos hfo] at h
                    cases hrn : renameIfMoved true (vGet s.vmap fid) (pathJoin dp nm) s.fs with
                    | error e => rw [hrn] at h; cases h
                    | ok pr1 =>
                      rw [hrn] at h
                      obtain ⟨fs1, ev1⟩ := pr1
                      dsimp only at h
                      cases hed : ensureDir fs1 (pathJoin dp nm) with
                      | error e => rw [hed] at h; cases h
                      | ok pr2 =>
                        rw [hed] at h
                        obtain ⟨fs2, ev2⟩ := pr2
                        dsimp only at h
                        cases hrc : recur fid (pathJoin dp nm) ⟨m1, fs2, s.tr ++ ev1 ++ ev2⟩ with
                        | error e => rw [hrc] at h; cases h
                        | ok s3 =>
                          rw [hrc] at h
                          dsimp only at h
                          cases hv : f.version with
                          | none => rw [hv] at h; cases h
                          | some v =>
                            rw [hv] at h
                            cases h
                            have hs3 : vGet s3.vmap k = vGet m1 k :=
                              hrec fid (pathJoin dp nm) ⟨m1, fs2, s.tr ++ ev1 ++ ev2⟩ s3 hrc k hkT
                            show vGet (vInsert _ fid _) k = _
                            rw [vGet_vInsert_ne _ _ _ _ hk]
                            cases hls : (vGet s.vmap fid).isSome with
                            | true =>
                              rw [if_pos rfl]
                              rw [vGet_vRemove, if_neg hk, hs3, hm1]
                            | false =>
                              rw [if_neg Bool.false_ne_true]
                              rw [hs3, hm1]
                  · rw [if_neg hfo] at h
                    cases hmd : maybeDownload c f (vGet s.vmap fid) dp nm s.fs with
                    | error e => rw [hmd] at h; cases h
                    | ok pr1 =>
                      rw [hmd] at h
                      obtain ⟨fs1, ev1⟩ := pr1
                      dsimp only at h
                      cases hrn : renameIfMoved false (vGet s.vmap fid) (pathJoin dp nm) fs1 with
                      | error e => rw [hrn] at h; cases h
                      | ok pr2 =>
                        rw [hrn] at h
                        obtain ⟨fs2, ev2⟩ := pr2
                        dsimp only at h
                        cases hv : f.version with
                        | none => rw [hv] at h; cases h
                        | some v =>
                          rw [hv] at h
                          cases h
                          show vGet (vInsert _ fid _) k = _
                          rw [vGet_vInsert_ne _ _ _ _ hk]
                          cases hls : (vGet s.vmap fid).isSome with
                          | true =>
                            rw [if_pos rfl]
                            rw [vGet_vRemove, if_neg hk, hm1]
                          | false =>
                            rw [if_neg Bool.false_ne_true]
                            exact hm1

theorem frame_runChildren (step : String → File → WState → Except Err StepRes)
    (ps : List (String × File)) (T : String → List String)
    (hstep : ∀ fid f t r, (fid, f) ∈ ps → step fid f t = .ok r →
      ∀ k, k ≠ fid → k ∉ T fid → vGet (stepState r).vmap k = vGet t.vmap k) :
    ∀ s r b, runChildren step ps s = .ok (r, b) →
      ∀ k, (∀ pr ∈ ps, k ≠ pr.1 ∧ k ∉ T pr.1) → vGet r.vmap k = vGet s.vmap k := by
  induction ps with
  | nil =>
    intro s r b h k hks
    cases h
    rfl
  | cons pr rest ih =>
    intro s r b h k hks
    obtain ⟨fid, f⟩ := pr
    unfold runChildren at h
    cases hs : step fid f s with
    | error e => rw [hs] at h; cases h
    | ok r0 =>
      rw [hs] at h
      have hfr : vGet (stepState r0).vmap k = vGet s.vmap k :=
        hstep fid f s r0 (List.mem_cons_self _ _) hs k
          (hks (fid, f) (List.mem_cons_self _ _)).1
          (hks (fid, f) (List.mem_cons_self _ _)).2
      cases r0 with
      | stop s' =>
        cases h
        exact hfr
      | cont s' =>
        have := ih (fun fid' f' t r' hm hst k' hk' hkT' =>
          hstep fid' f' t r' (List.mem_cons_of_mem _ hm) hst k' hk' hkT') s' r b h k
          (fun pr' hm => hks pr' (List.mem_cons_of_mem _ hm))
        rw [this]
        exact hfr

/-- The children map computed inside a successful walk is dedupOf. -/
theorem dedupOf_eq (c : Client) (id : String) (L : List File)
    (ps : List (String × File)) (hls : c.listFiles id = .ok L)
    (hps : collectFiles L [] = .ok ps) : dedupOf c id = ps := by
  unfold dedupOf
  rw [hls]
  dsimp only
  rw [hps]

theorem frame_sync_dir (c : Client) :
    ∀ fuel id dp s r, sync_dir c fuel id dp s = .ok r →
      ∀ k, k ∉ touchedIds c fuel id → vGet r.vmap k = vGet s.vmap k := by
  intro fuel
  induction fuel with
  | zero => intro id dp s r h; cases h
  | succ n ih =>
    intro id dp s r h k hkT
    rw [show sync_dir c (n + 1) id dp s = sync_dir_go c (sync_dir c n) id dp s from rfl] at h
    unfold sync_dir_go at h
    cases hg : c.getFile id with
    | error e => rw [hg] at h; cases h
    | ok od =>
      rw [hg] at h
      cases od with
      | none => cases h; rfl
      | some di =>
        dsimp only at h
        have hlist : ∀ (hh : (match c.listFiles id with
                   | .error e => Except.error (Err.drive e)
                   | .ok L =>
                     match collectFiles L [] with
                     | .error e => Except.error e
                     | .ok ps =>
                       match runChildren (processChild c (sync_dir c n) id dp) ps
                         ⟨s.vmap, s.fs, (s.tr ++ [Event.getFile id]) ++ [Event.listChildren id]⟩ with
                       | .error e => Except.error e
                       | .ok (s', _) => Except.ok s') =
              Except.ok r), vGet r.vmap k = vGet s.vmap k := by
          intro hh
          cases hls : c.listFiles id with
          | error e => rw [hls] at hh; cases hh
          | ok L =>
            rw [hls] at hh
            dsimp only at hh
            cases hcf : collectFiles L [] with
            | error e => rw [hcf] at hh; cases hh
            | ok ps =>
              rw [hcf] at hh
              dsimp only at hh
              cases hr : runChildren (processChild c (sync_dir c n) id dp) ps
                  ⟨s.vmap, s.fs, (s.tr ++ [Event.getFile id]) ++ [Event.listChildren id]⟩ with
              | error e => rw [hr] at hh; cases hh
              | ok pr =>
                rw [hr] at hh
                obtain ⟨s', b⟩ := pr
                cases hh
                have hdd : dedupOf c id = ps := dedupOf_eq c id L ps hls hcf
                have hkps : ∀ pr ∈ ps, k ≠ pr.1 ∧ k ∉ touchedIds c n pr.1 := by
                  intro pr hm
                  unfold touchedIds at hkT
                  rw [hdd] at hkT
                  constructor
                  · intro hkeq
                    exact hkT (List.mem_append_left _
                      (List.mem_map.mpr ⟨pr, hm, hkeq.symm⟩))
                  · intro hmem
                    exact hkT (List.mem_append_right _
                      (List.mem_flatMap.mpr ⟨pr, hm, hmem⟩))
                exact frame_runChildren _ ps (touchedIds c n)
                  (fun fid f t r' hm hst k' hk' hkT' =>
                    frame_processChild c (sync_dir c n) id dp fid f t r'
                      (touchedIds c n)
                      (fun i p' t' u hu k'' hk'' => ih i p' t' u hu k'' hk'')
                      hst k' hk' hkT')
                  _ r b hr k hkps
        cases hvg : vGet s.vmap id with
        | none =>
          rw [hvg] at h
          dsimp only at h
          rw [if_neg Bool.false_ne_true] at h
          exact hlist h
        | some e0 =>
          rw [hvg] at h
          dsimp only at h
          cases hdv : di.version with
          | none => rw [hdv] at h; cases h
          | some dv =>
            rw [hdv] at h
            dsimp only at h
            by_cases hsk : decide (e0.version = dv) = true
            · rw [if_pos hsk] at h
              cases h
              rfl
            · rw [if_neg hsk] at h
              exact hlist h

theorem isPrefixOf_append_self (l x : List String) :
    l.isPrefixOf (l ++ x) = true := by
  rw [List.isPrefixOf_iff_prefix]
  exact List.prefix_append l x

/-- Every id touched within fuel below x is a key of some children map,
of a folder no shallower than x. -/
theorem touched_ranked (c : Client) (rank : String → Nat) (hR : Ranked c rank) :
    ∀ fuel x k, k ∈ touchedIds c fuel x →
      ∃ q pr, pr ∈ dedupOf c q ∧ pr.1 = k ∧ rank x ≤ rank q := by
  intro fuel
  induction fuel with
  | zero => intro x k h; cases h
  | succ n ih =>
    intro x k h
    unfold touchedIds at h
    rcases List.mem_append.mp h with h1 | h2
    · obtain ⟨pr, hm, hk⟩ := List.mem_map.mp h1
      exact ⟨x, pr, hm, hk, Nat.le_refl _⟩
    · obtain ⟨pr, hm, hmem⟩ := List.mem_flatMap.mp h2
      obtain ⟨q, pr', hm', hk', hle⟩ := ih pr.1 k hmem
      exact ⟨q, pr', hm', hk',
        Nat.le_trans (Nat.le_of_lt (hR x pr.1 pr.2 hm)) hle⟩

/-- Under the store invariants, a child id of folder d is never touched
by the walk of a sibling's subtree. -/
theorem not_touched_sibling (c : Client) (rank : String → Nat)
    (hU : UniqueIds c) (hR : Ranked c rank) (d gid hid : String)
    (g hfile : File) (hg : (gid, g) ∈ dedupOf c d)
    (hh : (hid, hfile) ∈ dedupOf c d) :
    ∀ n, gid ∉ touchedIds c n hid := by
  intro n hmem
  obtain ⟨q, pr, hq, hk, hle⟩ := touched_ranked c rank hR n hid gid hmem
  have hq' : (gid, pr.2) ∈ dedupOf c q := by
    rw [← hk]
    exact hq
  have hqd : q = d := hU q d gid pr.2 gid g hq' hg rfl
  subst hqd
  exact absurd (Nat.lt_of_lt_of_le (hR q hid hfile hh) hle) (Nat.lt_irrefl _)

/-- A folder id is never touched below any of its own children: ranks
only grow along the walk. -/
theorem not_touched_below (c : Client) (rank : String → Nat)
    (hR : Ranked c rank) (d : String) :
    ∀ pr ∈ dedupOf c d, ∀ n, d ∉ touchedIds c n pr.1 := by
  intro pr hm n hmem
  obtain ⟨q, pr', hq, hk, hle⟩ := touched_ranked c rank hR n pr.1 d hmem
  have hq' : (d, pr'.2) ∈ dedupOf c q := by
    rw [← hk]
    exact hq
  have h1 : rank q < rank d := hR q d pr'.2 hq'
  have h2 : rank d < rank pr.1 := hR d pr.1 pr.2 hm
  exact absurd (Nat.lt_trans (Nat.lt_of_lt_of_le h2 hle) h1) (Nat.lt_irrefl _)

theorem assocInsert_keys (l : List (String × File)) (k : String) (f : File) :
    (assocInsert l k f).map (fun e => e.1) =
      if l.any (fun e => e.1 = k) then l.map (fun e => e.1)
      else l.map (fun e => e.1) ++ [k] := by
  unfold assocInsert
  split
  · simp only [List.map_map]
    apply List.map_congr_left
    intro e he
    by_cases hek : e.1 = k
    · simp [hek]
    · simp [hek]
  · simp

theorem collectFiles_keys_nodup (L : List File) :
    ∀ acc ps, (acc.map (fun e => e.1)).Nodup → collectFiles L acc = .ok ps →
      (ps.map (fun e => e.1)).Nodup := by
  induction L with
  | nil =>
    intro acc ps hacc h
    cases h
    exact hacc
  | cons f rest ih =>
    intro acc ps hacc h
    unfold collectFiles at h
    cases hid : f.id with
    | none => rw [hid] at h; cases h
    | some i =>
      rw [hid] at h
      refine ih (assocInsert acc i f) ps ?_ h
      rw [assocInsert_keys]
      split
      · exact hacc
      · next hany =>
        rw [List.nodup_append]
        refine ⟨hacc, List.nodup_singleton i, ?_⟩
        intro a ha hb
        rw [List.mem_singleton] at hb
        subst hb
        obtain ⟨e, he, hek⟩ := List.mem_map.mp ha
        exact hany (List.any_eq_true.mpr ⟨e, he, by simp [hek]⟩)

/-- What a continuing loop step leaves in the mapping for its own child:
either a live entry whose stamp equals the remote stamp and whose path
lies under the traversal directory, or no entry at all for a trashed
child. -/
theorem processChild_cont_post (c : Client)
    (recur : String → FPath → WState → Except Err WState)
    (pid : String) (dp : FPath) (fid : String) (f : File) (s s1 : WState)
    (h : processChild c recur pid dp fid f s = .ok (.cont s1)) :
    ∃ mt, f.mime_type = some mt ∧
      ((∃ e v, f.version = some v ∧ vGet s1.vmap fid = some e ∧
          e.version = v ∧ dp.isPrefixOf e.path = true) ∨
       (vGet s1.vmap fid = none ∧
         ∃ n, f.name = some n ∧ f.trashed = some true)) := by
  unfold processChild at h
  cases hmt : f.mime_type with
  | none => rw [hmt] at h; cases h
  | some mt =>
    rw [hmt] at h
    dsimp only at h
    refine ⟨mt, rfl, ?_⟩
    cases hrel : applyRelocation dp fid f (vGet s.vmap fid) s.vmap with
    | error e => rw [hrel] at h; cases h
    | ok m1 =>
      rw [hrel] at h
      dsimp only at h
      cases hch : changedCheck (vGet s.vmap fid) f with
      | error e => rw [hch] at h; cases h
      | ok changed =>
        rw [hch] at h
        dsimp only at h
        cases changed with
        | false =>
          rw [if_neg Bool.false_ne_true] at h
          cases h
          left
          unfold changedCheck at hch
          cases hloc : vGet s.vmap fid with
          | none => rw [hloc] at hch; cases hch
          | some l =>
            rw [hloc] at hch
            dsimp only at hch
            cases hv : f.version with
            | none => rw [hv] at hch; cases hch
            | some v =>
              rw [hv] at hch
              injection hch with heq
              have hlv : l.version = v := by
                by_contra hne
                simp [decide_eq_true hne] at heq
              unfold applyRelocation at hrel
              rw [hloc] at hrel
              dsimp only at hrel
              by_cases hp : dp.isPrefixOf l.path = true
              · rw [if_pos hp] at hrel
                cases hrel
                exact ⟨l, v, rfl, hloc, hlv, hp⟩
              · rw [if_neg hp] at hrel
                cases hn : f.name with
                | none => rw [hn] at hrel; cases hrel
                | some n =>
                  rw [hn] at hrel
                  cases hrel
                  refine ⟨{ l with path := pathJoin dp n }, v, rfl,
                    vGet_vInsert_self _ _ _, hlv, ?_⟩
                  exact isPrefixOf_append_self dp (splitPath n)
        | true =>
          rw [if_pos rfl] at h
          cases hnm : f.name with
          | none => rw [hnm] at h; cases h
          | some nm =>
            rw [hnm] at h
            dsimp only at h
            cases htr : f.trashed with
            | none => rw [htr] at h; cases h
            | some tv =>
              rw [htr] at h
              dsimp only at h
              cases tv with
              | true =>
                rw [if_pos rfl] at h
                cases hrm : remove_from_fs (vGet s.vmap fid) s.fs with
                | error e => rw [hrm] at h; cases h
                | ok pr =>
                  rw [hrm] at h
                  obtain ⟨fs', ev⟩ := pr
                  cases h
                  right
                  refine ⟨?_, nm, rfl, rfl⟩
                  show vGet (vRemove m1 fid) fid = none
                  rw [vGet_vRemove, if_pos rfl]
              | false =>
                rw [if_neg Bool.false_ne_true] at h
                by_cases hsl : containsSlash nm = true
                · rw [if_pos hsl] at h; cases h
                · rw [if_neg hsl] at h
                  by_cases hfo : mt = folderMime
                  · rw [if_pos hfo] at h
                    cases hrn : renameIfMoved true (vGet s.vmap fid) (pathJoin dp nm) s.fs with
                    | error e => rw [hrn] at h; cases h
                    | ok pr1 =>
                      rw [hrn] at h
                      obtain ⟨fs1, ev1⟩ := pr1
                      dsimp only at h
                      cases hed : ensureDir fs1 (pathJoin dp nm) with
                      | error e => rw [hed] at h; cases h
                      | ok pr2 =>
                        rw [hed] at h
                        obtain ⟨fs2, ev2⟩ := pr2
                        dsimp only at h
                        cases hrc : recur fid (pathJoin dp nm) ⟨m1, fs2, s.tr ++ ev1 ++ ev2⟩ with
                        | error e => rw [hrc] at h; cases h
                        | ok s3 =>
                          rw [hrc] at h
                          dsimp only at h
                          cases hv : f.version with
                          | none => rw [hv] at h; cases h
                          | some v =>
                            rw [hv] at h
                            cases h
                            left
                            refine ⟨_, v, rfl, vGet_vInsert_self _ _ _, rfl, ?_⟩
                            exact isPrefixOf_append_self dp (splitPath nm)
                  · rw [if_neg hfo] at h
                    cases hmd : maybeDownload c f (vGet s.vmap fid) dp nm s.fs with
                    | error e => rw [hmd] at h; cases h
                    | ok pr1 =>
                      rw [hmd] at h
                      obtain ⟨fs1, ev1⟩ := pr1
                      dsimp only at h
                      cases hrn : renameIfMoved false (vGet s.vmap fid) (pathJoin dp nm) fs1 with
                      | error e => rw [hrn] at h; cases h
                      | ok pr2 =>
                        rw [hrn] at h
                        obtain ⟨fs2, ev2⟩ := pr2
                        dsimp only at h
                        cases hv : f.version with
                        | none => rw [hv] at h; cases h
                        | some v =>
                          rw [hv] at h
                          cases h
                          left
                          refine ⟨_, v, rfl, vGet_vInsert_self _ _ _, rfl, ?_⟩
                          exact isPrefixOf_append_self dp (splitPath nm)

/-- What an early-stopping loop step looks like: a slash-named,
new-or-changed, untrashed child; the filesystem and trace are unchanged
and the child's own entry is absent or still stale under the traversal
directory. -/
theorem processChild_stop_post (c : Client)
    (recur : String → FPath → WState → Except Err WState)
    (pid : String) (dp : FPath) (fid : String) (f : File) (s s1 : WState)
    (h : processChild c recur pid dp fid f s = .ok (.stop s1)) :
    ∃ mt n, f.mime_type = some mt ∧ f.name = some n ∧
      containsSlash n = true ∧ f.trashed = some false ∧
      s1.fs = s.fs ∧ s1.tr = s.tr ∧
      (vGet s1.vmap fid = none ∨
        ∃ e v, vGet s1.vmap fid = some e ∧ dp.isPrefixOf e.path = true ∧
          f.version = some v ∧ e.version ≠ v) := by
  unfold processChild at h
  cases hmt : f.mime_type with
  | none => rw [hmt] at h; cases h
  | some mt =>
    rw [hmt] at h
    dsimp only at h
    cases hrel : applyRelocation dp fid f (vGet s.vmap fid) s.vmap with
    | error e => rw [hrel] at h; cases h
    | ok m1 =>
      rw [hrel] at h
      dsimp only at h
      cases hch : changedCheck (vGet s.vmap fid) f with
      | error e => rw [hch] at h; cases h
      | ok changed =>
        rw [hch] at h
        dsimp only at h
        cases changed with
        | false => rw [if_neg Bool.false_ne_true] at h; cases h
        | true =>
          rw [if_pos rfl] at h
          cases hnm : f.name with
          | none => rw [hnm] at h; cases h
          | some nm =>
            rw [hnm] at h
            dsimp only at h
            cases htr : f.trashed with
            | none => rw [htr] at h; cases h
            | some tv =>
              rw [htr] at h
              dsimp only at h
              cases tv with
              | true =>
                rw [if_pos rfl] at h
                cases hrm : remove_from_fs (vGet s.vmap fid) s.fs with
                | error e => rw [hrm] at h; cases h
                | ok pr =>
                  rw [hrm] at h
                  obtain ⟨fs', ev⟩ := pr
                  cases h
              | false =>
                rw [if_neg Bool.false_ne_true] at h
                by_cases hsl : containsSlash nm = true
                · rw [if_pos hsl] at h
                  cases h
                  refine ⟨mt, nm, rfl, rfl, hsl, rfl, rfl, rfl, ?_⟩
                  unfold applyRelocation at hrel
                  cases hloc : vGet s.vmap fid with
                  | none =>
                    rw [hloc] at hrel
                    cases hrel
                    left
                    exact hloc
                  | some l =>
                    rw [hloc] at hrel
                    dsimp only at hrel
                    unfold changedCheck at hch
                    rw [hloc] at hch
                    dsimp only at hch
                    cases hv : f.version with
                    | none => rw [hv] at hch; cases hch
                    | some v =>
                      rw [hv] at hch
                      injection hch with heq
                      have hlv : l.version ≠ v := by
                        intro hcontra
                        simp [hcontra] at heq
                      right
                      by_cases hp : dp.isPrefixOf l.path = true
                      · rw [if_pos hp] at hrel
                        cases hrel
                        exact ⟨l, v, hloc, hp, rfl, hlv⟩
                      · rw [if_neg hp] at hrel
                        cases hn : f.name with
                        | none => rw [hn] at hrel; cases hrel
                        | some n0 =>
                          rw [hn] at hrel
                          cases hrel
                          exact ⟨{ l with path := pathJoin dp n0 }, v,
                            vGet_vInsert_self _ _ _,
                            isPrefixOf_append_self dp (splitPath n0), rfl, hlv⟩
                · rw [if_neg hsl] at h
                  by_cases hfo : mt = folderMime
                  · rw [if_pos hfo] at h
                    cases hrn : renameIfMoved true (vGet s.vmap fid) (pathJoin dp nm) s.fs with
                    | error e => rw [hrn] at h; cases h
                    | ok pr1 =>
                      rw [hrn] at h
                      obtain ⟨fs1, ev1⟩ := pr1
                      dsimp only at h
                      cases hed : ensureDir fs1 (pathJoin dp nm) with
                      | error e => rw [hed] at h; cases h
                      | ok pr2 =>
                        rw [hed] at h
                        obtain ⟨fs2, ev2⟩ := pr2
                        dsimp only at h
                        cases hrc : recur fid (pathJoin dp nm) ⟨m1, fs2, s.tr ++ ev1 ++ ev2⟩ with
                        | error e => rw [hrc] at h; cases h
                        | ok s3 =>
                          rw [hrc] at h
                          dsimp only at h
                          cases hv : f.version with
                          | none => rw [hv] at h; cases h
                          | some v => rw [hv] at h; cases h
                  · rw [if_neg hfo] at h
                    cases hmd : maybeDownload c f (vGet s.vmap fid) dp nm s.fs with
                    | error e => rw [hmd] at h; cases h
                    | ok pr1 =>
                      rw [hmd] at h
                      obtain ⟨fs1, ev1⟩ := pr1
                      dsimp only at h
                      cases hrn : renameIfMoved false (vGet s.vmap fid) (pathJoin dp nm) fs1 with
                      | error e => rw [hrn] at h; cases h
                      | ok pr2 =>
                        rw [hrn] at h
                        obtain ⟨fs2, ev2⟩ := pr2
                        dsimp only at h
                        cases hv : f.version with
                        | none => rw [hv] at h; cases h
                        | some v => rw [hv] at h; cases h

/-- A child whose entry is live, in place and stamp-matched is a complete
no-op of the loop body. -/
theorem processChild_self_skip (c : Client)
    (recur : String → FPath → WState → Except Err WState)
    (pid : String) (dp : FPath) (fid : String) (f : File) (t : WState)
    (mt : String) (e : Version)
    (hmt : f.mime_type = some mt) (hget : vGet t.vmap fid = some e)
    (hpref : dp.isPrefixOf e.path = true) (hv : f.version = some e.version) :
    processChild c recur pid dp fid f t = .ok (.cont t) := by
  have hrel : applyRelocation dp fid f (vGet t.vmap fid) t.vmap = .ok t.vmap := by
    unfold applyRelocation
    rw [hget]
    dsimp only
    rw [if_pos hpref]
  have hch : changedCheck (vGet t.vmap fid) f = .ok false := by
    unfold changedCheck
    rw [hget]
    dsimp only
    rw [hv]
    simp
  unfold processChild
  rw [hmt]
  dsimp only
  rw [hrel]
  dsimp only
  rw [hch]
  dsimp only
  rw [if_neg Bool.false_ne_true]

/-- A trashed child with no remaining entry is a complete no-op of the
loop body: the mapping removal and the filesystem removal both act on
nothing. -/
theorem processChild_self_gone (c : Client)
    (recur : String → FPath → WState → Except Err WState)
    (pid : String) (dp : FPath) (fid : String) (f : File) (t : WState)
    (mt n : String)
    (hmt : f.mime_type = some mt) (hget : vGet t.vmap fid = none)
    (hn : f.name = some n) (htr : f.trashed = some true) :
    processChild c recur pid dp fid f t = .ok (.cont t) := by
  have hrel : applyRelocation dp fid f (vGet t.vmap fid) t.vmap = .ok t.vmap := by
    unfold applyRelocation
    rw [hget]
  have hch : changedCheck (vGet t.vmap fid) f = .ok true := by
    unfold changedCheck
    rw [hget]
  have hrm : remove_from_fs (vGet t.vmap fid) t.fs = .ok (t.fs, []) := by
    unfold remove_from_fs
    rw [hget]
  unfold processChild
  rw [hmt]
  dsimp only
  rw [hrel]
  dsimp only
  rw [hch]
  dsimp only
  rw [if_pos rfl, hn]
  dsimp only
  rw [htr]
  dsimp only
  rw [if_pos rfl, hrm]
  rw [vRemove_of_not_mem _ _ hget]
  dsimp only
  rw [List.append_nil]

/-- A slash-named child whose entry is absent or still stale-in-place
stops the loop again while changing nothing. -/
theorem processChild_self_stop (c : Client)
    (recur : String → FPath → WState → Except Err WState)
    (pid : String) (dp : FPath) (fid : String) (f : File) (t : WState)
    (mt n : String)
    (hmt : f.mime_type = some mt) (hn : f.name = some n)
    (hslash : containsSlash n = true) (htr : f.trashed = some false)
    (hdisj : vGet t.vmap fid = none ∨
      ∃ e v, vGet t.vmap fid = some e ∧ dp.isPrefixOf e.path = true ∧
        f.version = some v ∧ e.version ≠ v) :
    processChild c recur pid dp fid f t = .ok (.stop t) := by
  have hrel : applyRelocation dp fid f (vGet t.vmap fid) t.vmap = .ok t.vmap := by
    unfold applyRelocation
    rcases hdisj with hget | ⟨e, v, hget, hpref, hv, hne⟩
    · rw [hget]
    · rw [hget]
      dsimp only
      rw [if_pos hpref]
  have hch : changedCheck (vGet t.vmap fid) f = .ok true := by
    unfold changedCheck
    rcases hdisj with hget | ⟨e, v, hget, hpref, hv, hne⟩
    · rw [hget]
    · rw [hget]
      dsimp only
      rw [hv]
      simp [hne]
  unfold processChild
  rw [hmt]
  dsimp only
  rw [hrel]
  dsimp only
  rw [hch]
  dsimp only
  rw [if_pos rfl, hn]
  dsimp only
  rw [htr]
  dsimp only
  rw [if_neg Bool.false_ne_true, if_pos hslash]

/-- Idempotence of the child loop: re-running the loop from the final
state of a successful run changes nothing and stops at the same point. -/
theorem idem_runChildren (c : Client) (rank : String → Nat)
    (hU : UniqueIds c) (hR : Ranked c rank) (fuel : Nat) (d : String)
    (dp : FPath) :
    ∀ ps s sF b,
      (∀ pr ∈ ps, pr ∈ dedupOf c d) →
      ((ps.map (fun e => e.1)).Nodup) →
      runChildren (processChild c (sync_dir c fuel) d dp) ps s = .ok (sF, b) →
      ∀ tr, runChildren (processChild c (sync_dir c fuel) d dp) ps
          ⟨sF.vmap, sF.fs, tr⟩ = .ok (⟨sF.vmap, sF.fs, tr⟩, b) := by
  intro ps
  induction ps with
  | nil =>
    intro s sF b hsub hnd h tr
    cases h
    rfl
  | cons pr rest ih =>
    intro s sF b hsub hnd h tr
    obtain ⟨fid, f⟩ := pr
    unfold runChildren at h
    cases hs : processChild c (sync_dir c fuel) d dp fid f s with
    | error e => rw [hs] at h; cases h
    | ok r0 =>
      rw [hs] at h
      cases r0 with
      | stop s1 =>
        cases h
        obtain ⟨mt, n, hmt, hn, hslash, htrf, hfs, htrc, hdisj⟩ :=
          processChild_stop_post c _ d dp fid f s sF hs
        have hself := processChild_self_stop c (sync_dir c fuel) d dp fid f
          ⟨sF.vmap, sF.fs, tr⟩ mt n hmt hn hslash htrf hdisj
        unfold runChildren
        rw [hself]
      | cont s1 =>
        have hsub' : ∀ pr ∈ rest, pr ∈ dedupOf c d :=
          fun pr hm => hsub pr (List.mem_cons_of_mem _ hm)
        have hnd' : (rest.map (fun e => e.1)).Nodup := (List.nodup_cons.mp hnd).2
        have hih := ih s1 sF b hsub' hnd' h
        have hframe : vGet sF.vmap fid = vGet s1.vmap fid := by
          refine frame_runChildren _ rest (touchedIds c fuel) ?_ s1 sF b h fid ?_
          · intro fid' f' t r' hm hst k' hk' hkT'
            exact frame_processChild c (sync_dir c fuel) d dp fid' f' t r'
              (touchedIds c fuel)
              (fun i p' t' u hu k'' hk'' => frame_sync_dir c fuel i p' t' u hu k'' hk'')
              hst k' hk' hkT'
          · intro pr' hm'
            constructor
            · intro hkeq
              exact (List.nodup_cons.mp hnd).1 (List.mem_map.mpr ⟨pr', hm', hkeq.symm⟩)
            · exact not_touched_sibling c rank hU hR d fid pr'.1 f pr'.2
                (hsub (fid, f) (List.mem_cons_self _ _)) (hsub' pr' hm') fuel
        obtain ⟨mt, hmt, hpost⟩ := processChild_cont_post c _ d dp fid f s s1 hs
        have hself : processChild c (sync_dir c fuel) d dp fid f ⟨sF.vmap, sF.fs, tr⟩ =
            .ok (.cont ⟨sF.vmap, sF.fs, tr⟩) := by
          rcases hpost with ⟨e, v, hv, hget, hev, hpref⟩ | ⟨hnone, n, hn, htrf⟩
          · refine processChild_self_skip c _ d dp fid f _ mt e hmt ?_ hpref ?_
            · show vGet sF.vmap fid = some e
              rw [hframe]
              exact hget
            · rw [hv, hev]
          · refine processChild_self_gone c _ d dp fid f _ mt n hmt ?_ hn htrf
            show vGet sF.vmap fid = none
            rw [hframe]
            exact hnone
        unfold runChildren
        rw [hself]
        exact hih tr

/-- C3: idempotence of reconciliation.  Under the remote store's
documented invariants (unique object ids across listings and an acyclic
hierarchy, witnessed by a rank function), a second walk from the mapping
and filesystem produced by a successful walk of the same unchanged remote
returns them unchanged, performing no filesystem mutation: the only new
events are the folder metadata fetch, and possibly the one child-listing
call, of the root of the walk. -/
theorem sync_dir_idempotent (c : Client) (rank : String → Nat)
    (hU : UniqueIds c) (hR : Ranked c rank) (fuel : Nat) (id : String)
    (dp : FPath) (s sF : WState)
    (h : sync_dir c fuel id dp s = .ok sF) :
    ∀ tr, ∃ ev, sync_dir c fuel id dp ⟨sF.vmap, sF.fs, tr⟩ =
        .ok ⟨sF.vmap, sF.fs, tr ++ ev⟩ ∧
      (ev = [Event.getFile id] ∨ ev = [Event.getFile id, Event.listChildren id]) := by
  intro tr
  cases fuel with
  | zero => cases h
  | succ n =>
    rw [show sync_dir c (n + 1) id dp s = sync_dir_go c (sync_dir c n) id dp s from rfl] at h
    unfold sync_dir_go at h
    cases hg : c.getFile id with
    | error e => rw [hg] at h; cases h
    | ok od =>
      rw [hg] at h
      cases od with
      | none =>
        cases h
        refine ⟨[Event.getFile id], ?_, Or.inl rfl⟩
        show sync_dir_go c (sync_dir c n) id dp _ = _
        unfold sync_dir_go
        rw [hg]
      | some di =>
        dsimp only at h
        have hcore : ∀ (hh : (match c.listFiles id with
              | .error e => Except.error (Err.drive e)
              | .ok L =>
                match collectFiles L [] with
                | .error e => Except.error e
                | .ok ps =>
                  match runChildren (processChild c (sync_dir c n) id dp) ps
                    ⟨s.vmap, s.fs, (s.tr ++ [Event.getFile id]) ++ [Event.listChildren id]⟩ with
                  | .error e => Except.error e
                  | .ok (s', _) => Except.ok s') = Except.ok sF),
            vGet sF.vmap id = vGet s.vmap id ∧
            ∀ t0, (match c.listFiles id with
              | .error e => Except.error (Err.drive e)
              | .ok L =>
                match collectFiles L [] with
                | .error e => Except.error e
                | .ok ps =>
                  match runChildren (processChild c (sync_dir c n) id dp) ps
                    ⟨sF.vmap, sF.fs, t0⟩ with
                  | .error e => Except.error e
                  | .ok (s', _) => Except.ok s') =
              Except.ok (⟨sF.vmap, sF.fs, t0⟩ : WState) := by
          intro hh
          cases hls : c.listFiles id with
          | error e => rw [hls] at hh; cases hh
          | ok L =>
            rw [hls] at hh
            dsimp only at hh
            cases hcf : collectFiles L [] with
            | error e => rw [hcf] at hh; cases hh
            | ok ps =>
              rw [hcf] at hh
              dsimp only at hh
              cases hr : runChildren (processChild c (sync_dir c n) id dp) ps
                  ⟨s.vmap, s.fs, (s.tr ++ [Event.getFile id]) ++ [Event.listChildren id]⟩ with
              | error e => rw [hr] at hh; cases hh
              | ok pr =>
                rw [hr] at hh
                obtain ⟨sF', b⟩ := pr
                cases hh
                have hdd : dedupOf c id = ps := dedupOf_eq c id L ps hls hcf
                have hsub : ∀ pr ∈ ps, pr ∈ dedupOf c id := by
                  intro pr hm
                  rw [hdd]
                  exact hm
                constructor
                · refine frame_runChildren _ ps (touchedIds c n) ?_ _ sF b hr id ?_
                  · intro fid' f' t r' hm hst k' hk' hkT'
                    exact frame_processChild c (sync_dir c n) id dp fid' f' t r'
                      (touchedIds c n)
                      (fun i p' t' u hu k'' hk'' =>
                        frame_sync_dir c n i p' t' u hu k'' hk'')
                      hst k' hk' hkT'
                  · intro pr' hm'
                    constructor
                    · intro hkeq
                      have := hR id pr'.1 pr'.2 (hsub pr' hm')
                      rw [← hkeq] at this
                      exact absurd this (Nat.lt_irrefl _)
                    · exact not_touched_below c rank hR id pr' (hsub pr' hm') n
                · intro t0
                  have hnd : (ps.map (fun e => e.1)).Nodup :=
                    collectFiles_keys_nodup L [] ps (by simp) hcf
                  have hidem := idem_runChildren c rank hU hR n id dp ps _ sF b
                    hsub hnd hr t0
                  dsimp only
                  rw [hcf]
                  dsimp only
                  rw [hidem]
        cases hvg : vGet s.vmap id with
        | some e0 =>
          rw [hvg] at h
          dsimp only at h
          cases hdv : di.version with
          | none => rw [hdv] at h; cases h
          | some dv =>
            rw [hdv] at h
            dsimp only at h
            by_cases hsk : decide (e0.version = dv) = true
            · rw [if_pos hsk] at h
              cases h
              refine ⟨[Event.getFile id], ?_, Or.inl rfl⟩
              show sync_dir_go c (sync_dir c n) id dp _ = _
              unfold sync_dir_go
              rw [hg]
              dsimp only
              rw [hvg]
              dsimp only
              rw [hdv]
              dsimp only
              rw [if_pos hsk]
            · rw [if_neg hsk] at h
              obtain ⟨hfr, hrun2⟩ := hcore h
              refine ⟨[Event.getFile id, Event.listChildren id], ?_, Or.inr rfl⟩
              show sync_dir_go c (sync_dir c n) id dp _ = _
              unfold sync_dir_go
              rw [hg]
              dsimp only
              rw [show vGet sF.vmap id = some e0 from hfr.trans hvg]
              dsimp only
              rw [hdv]
              dsimp only
              rw [if_neg hsk]
              have := hrun2 ((tr ++ [Event.getFile id]) ++ [Event.listChildren id])
              rw [this]
              rw [List.append_assoc]
              rfl
        | none =>
          rw [hvg] at h
          dsimp only at h
          rw [if_neg Bool.false_ne_true] at h
          obtain ⟨hfr, hrun2⟩ := hcore h
          refine ⟨[Event.getFile id, Event.listChildren id], ?_, Or.inr rfl⟩
          show sync_dir_go c (sync_dir c n) id dp _ = _
          unfold sync_dir_go
          rw [hg]
          dsimp only
          rw [show vGet sF.vmap id = none from hfr.trans hvg]
          dsimp only
          rw [if_neg Bool.false_ne_true]
          have := hrun2 ((tr ++ [Event.getFile id]) ++ [Event.listChildren id])
          rw [this]
          rw [List.append_assoc]
          rfl

/-- Witness for C3: idempotence applied to a concrete client (for which
the store invariants hold vacuously: every listing is empty). -/
theorem sync_dir_idempotent_witness :
    ∃ ev, sync_dir exClientSkip 1 "q" ["root"] ⟨[], exRootFs, []⟩ =
        .ok ⟨[], exRootFs, [] ++ ev⟩ ∧
      (ev = [Event.getFile "q"] ∨
        ev = [Event.getFile "q", Event.listChildren "q"]) := by
  have hU : UniqueIds exClientSkip := by
    intro p q kf f kg g hp hq hk
    exact absurd hp (List.not_mem_nil _)
  have hR : Ranked exClientSkip (fun _ => 0) := by
    intro p k f hm
    exact absurd hm (List.not_mem_nil _)
  exact sync_dir_idempotent exClientSkip (fun _ => 0) hU hR 1 "q" ["root"]
    ⟨[], exRootFs, []⟩
    ⟨[], exRootFs, [Event.getFile "q", Event.listChildren "q"]⟩ rfl []

/-! Creation lemmas: a walk creates filesystem objects only under the
computed destinations of the children it processes. -/

theorem FS.lookup_isSome_iff (fs : FS) (q : FPath) :
    FS.lookup fs q ≠ none ↔ ∃ nd, (q, nd) ∈ fs.entries := by
  constructor
  · intro h
    cases hf : fs.entries.find? (fun e => decide (e.1 = q)) with
    | none => exact absurd (by simp [FS.lookup, hf]) h
    | some x =>
      have hx := List.find?_some hf
      have hmem := List.mem_of_find?_eq_some hf
      have hxq : x.1 = q := by simpa using hx
      exact ⟨x.2, by rw [← hxq]; exact hmem⟩
  · rintro ⟨nd, hmem⟩ h
    have hn : fs.entries.find? (fun e => decide (e.1 = q)) = none :=
      Option.map_eq_none'.mp h
    have := List.find?_eq_none.mp hn (q, nd) hmem
    simp at this

theorem isPrefixOf_trans (a b q : List String)
    (h1 : a.isPrefixOf b = true) (h2 : b.isPrefixOf q = true) :
    a.isPrefixOf q = true := by
  rw [List.isPrefixOf_iff_prefix] at h1 h2 ⊢
  exact h1.trans h2

theorem FS.createDir_created (fs : FS) (p : FPath) (fs' : FS)
    (h : fs.createDir p = .ok fs') (q : FPath)
    (hq : FS.lookup fs' q ≠ none) : FS.lookup fs q ≠ none ∨ q = p := by
  unfold FS.createDir at h
  split at h
  · cases h
  · split at h
    · cases h
      obtain ⟨nd, hm⟩ := (FS.lookup_isSome_iff _ q).mp hq
      rcases List.mem_cons.mp hm with h1 | h2
      · right
        exact congrArg Prod.fst h1
      · left
        exact (FS.lookup_isSome_iff _ q).mpr ⟨nd, h2⟩
    · cases h

theorem FS.writeFile_created (fs : FS) (p : FPath) (b : List Nat) (fs' : FS)
    (h : fs.writeFile p b = .ok fs') (q : FPath)
    (hq : FS.lookup fs' q ≠ none) : FS.lookup fs q ≠ none ∨ q = p := by
  unfold FS.writeFile at h
  split at h
  · cases h
  · cases h
    obtain ⟨nd, hm⟩ := (FS.lookup_isSome_iff _ q).mp hq
    obtain ⟨e, he, heq⟩ := List.mem_map.mp hm
    by_cases hep : e.1 = p
    · right
      rw [if_pos hep] at heq
      exact (congrArg Prod.fst heq).symm
    · left
      rw [if_neg hep] at heq
      exact (FS.lookup_isSome_iff _ q).mpr ⟨nd, heq ▸ he⟩
  · split at h
    · cases h
      obtain ⟨nd, hm⟩ := (FS.lookup_isSome_iff _ q).mp hq
      rcases List.mem_cons.mp hm with h1 | h2
      · right
        exact congrArg Prod.fst h1
      · left
        exact (FS.lookup_isSome_iff _ q).mpr ⟨nd, h2⟩
    · cases h

theorem FS.rename_created (fs : FS) (old new : FPath) (fs' : FS)
    (h : fs.rename old new = .ok fs') (q : FPath)
    (hq : FS.lookup fs' q ≠ none) :
    FS.lookup fs q ≠ none ∨ new.isPrefixOf q = true := by
  unfold FS.rename at h
  split at h
  · cases h
  · split at h
    · cases h
      left
      exact hq
    · split at h
      · cases h
      · split at h
        · cases h
        · split at h
          · cases h
            obtain ⟨nd, hm⟩ := (FS.lookup_isSome_iff _ q).mp hq
            obtain ⟨e, he, heq⟩ := List.mem_map.mp hm
            by_cases hpe : old.isPrefixOf e.1 = true
            · right
              rw [if_pos hpe] at heq
              have : q = new ++ e.1.drop old.length := (congrArg Prod.fst heq).symm
              rw [this]
              exact isPrefixOf_append_self new _
            · left
              rw [if_neg hpe] at heq
              have he' := List.mem_of_mem_filter he
              exact (FS.lookup_isSome_iff _ q).mpr ⟨nd, heq ▸ he'⟩
          · cases h
        · split at h
          · cases h
            obtain ⟨nd, hm⟩ := (FS.lookup_isSome_iff _ q).mp hq
            obtain ⟨e, he, heq⟩ := List.mem_map.mp hm
            by_cases hpe : old.isPrefixOf e.1 = true
            · right
              rw [if_pos hpe] at heq
              have : q = new ++ e.1.drop old.length := (congrArg Prod.fst heq).symm
              rw [this]
              exact isPrefixOf_append_self new _
            · left
              rw [if_neg hpe] at heq
              exact (FS.lookup_isSome_iff _ q).mpr ⟨nd, heq ▸ he⟩
          · cases h

theorem FS.removeFile_subset (fs : FS) (p : FPath) (fs' : FS)
    (h : fs.removeFile p = .ok fs') (q : FPath)
    (hq : FS.lookup fs' q ≠ none) : FS.lookup fs q ≠ none := by
  rw [FS.lookup_removeFile fs p fs' h q] at hq
  by_cases hqp : q = p
  · rw [if_pos hqp] at hq
    exact absurd rfl hq
  · rw [if_neg hqp] at hq
    exact hq

theorem FS.removeDirAll_subset (fs : FS) (p : FPath) (fs' : FS)
    (h : fs.removeDirAll p = .ok fs') (q : FPath)
    (hq : FS.lookup fs' q ≠ none) : FS.lookup fs q ≠ none := by
  rw [FS.lookup_removeDirAll fs p fs' h q] at hq
  by_cases hqp : p.isPrefixOf q = true
  · rw [if_pos hqp] at hq
    exact absurd rfl hq
  · rw [if_neg hqp] at hq
    exact hq

theorem remove_from_fs_subset (loc : Option Version) (fs fs' : FS)
    (ev : List Event) (h : remove_from_fs loc fs = .ok (fs', ev)) (q : FPath)
    (hq : FS.lookup fs' q ≠ none) : FS.lookup fs q ≠ none := by
  unfold remove_from_fs at h
  cases loc with
  | none => cases h; exact hq
  | some l =>
    dsimp only at h
    split at h
    · split at h
      · cases hrm : fs.removeDirAll l.path with
        | error e => rw [hrm] at h; cases h
        | ok fs2 =>
          rw [hrm] at h
          cases h
          exact FS.removeDirAll_subset fs l.path fs' hrm q hq
      · cases hrm : fs.removeFile l.path with
        | error e => rw [hrm] at h; cases h
        | ok fs2 =>
          rw [hrm] at h
          cases h
          exact FS.removeFile_subset fs l.path fs' hrm q hq
    · cases h; exact hq

theorem save_file_created (c : Client) (f : File) (p : FPath) (fs fs' : FS)
    (ev : List Event) (h : save_file c f p fs = .ok (fs', ev)) (q : FPath)
    (hq : FS.lookup fs' q ≠ none) : FS.lookup fs q ≠ none ∨ q = p := by
  unfold save_file at h
  cases hid : f.id with
  | none => rw [hid] at h; cases h
  | some i =>
    rw [hid] at h
    dsimp only at h
    cases hdl : c.downloadFile i with
    | error e => rw [hdl] at h; cases h
    | ok b =>
      rw [hdl] at h
      dsimp only at h
      cases hw : fs.writeFile p b with
      | error e => rw [hw] at h; cases h
      | ok fs2 =>
        rw [hw] at h
        cases h
        exact FS.writeFile_created fs p b fs' hw q hq

theorem renameIfMoved_created (bailMsg : Bool) (loc : Option Version)
    (filePath : FPath) (fs fs' : FS) (ev : List Event)
    (h : renameIfMoved bailMsg loc filePath fs = .ok (fs', ev)) (q : FPath)
    (hq : FS.lookup fs' q ≠ none) :
    FS.lookup fs q ≠ none ∨ filePath.isPrefixOf q = true := by
  unfold renameIfMoved at h
  cases loc with
  | none => cases h; left; exact hq
  | some l =>
    dsimp only at h
    split at h
    · cases hr : fs.rename l.path filePath with
      | error e => rw [hr] at h; cases h
      | ok fs2 =>
        rw [hr] at h
        cases h
        exact FS.rename_created fs l.path filePath fs' hr q hq
    · cases h
      left
      exact hq

theorem ensureDir_created (fs : FS) (p : FPath) (fs' : FS) (ev : List Event)
    (h : ensureDir fs p = .ok (fs', ev)) (q : FPath)
    (hq : FS.lookup fs' q ≠ none) :
    FS.lookup fs q ≠ none ∨ p.isPrefixOf q = true := by
  unfold ensureDir at h
  split at h
  · cases hc : fs.createDir p with
    | error e => rw [hc] at h; cases h
    | ok fs2 =>
      rw [hc] at h
      cases h
      rcases FS.createDir_created fs p fs' hc q hq with h1 | h2
      · left; exact h1
      · right
        rw [h2]
        rw [List.isPrefixOf_iff_prefix]
  · cases h
    left
    exact hq

theorem maybeDownload_created (c : Client) (f : File) (loc : Option Version)
    (dp : FPath) (name : String) (fs fs' : FS) (ev : List Event)
    (h : maybeDownload c f loc dp name fs = .ok (fs', ev)) (q : FPath)
    (hq : FS.lookup fs' q ≠ none) :
    FS.lookup fs q ≠ none ∨ q = pathJoin dp name := by
  unfold maybeDownload at h
  cases loc with
  | none => exact save_file_created c f _ fs fs' ev h q hq
  | some l =>
    dsimp only at h
    split at h
    · exact save_file_created c f _ fs fs' ev h q hq
    · cases h
      left
      exact hq

theorem created_processChild (c : Client)
    (recur : String → FPath → WState → Except Err WState)
    (pid : String) (dp : FPath) (fid : String) (f : File) (s : WState)
    (r : StepRes)
    (hrec : ∀ i p t u, recur i p t = .ok u →
      ∀ q, FS.lookup u.fs q ≠ none →
        FS.lookup t.fs q ≠ none ∨ p.isPrefixOf q = true)
    (h : processChild c recur pid dp fid f s = .ok r) :
    ∀ q, FS.lookup (stepState r).fs q ≠ none →
      FS.lookup s.fs q ≠ none ∨
        ∃ n, f.name = some n ∧ (pathJoin dp n).isPrefixOf q = true := by
  intro q hq
  unfold processChild at h
  cases hmt : f.mime_type with
  | none => rw [hmt] at h; cases h
  | some mt =>
    rw [hmt] at h
    dsimp only at h
    cases hrel : applyRelocation dp fid f (vGet s.vmap fid) s.vmap with
    | error e => rw [hrel] at h; cases h
    | ok m1 =>
      rw [hrel] at h
      dsimp only at h
      cases hch : changedCheck (vGet s.vmap fid) f with
      | error e => rw [hch] at h; cases h
      | ok changed =>
        rw [hch] at h
        dsimp only at h
        cases changed with
        | false =>
          rw [if_neg Bool.false_ne_true] at h
          cases h
          left
          exact hq
        | true =>
          rw [if_pos rfl] at h
          cases hnm : f.name with
          | none => rw [hnm] at h; cases h
          | some nm =>
            rw [hnm] at h
            dsimp only at h
            cases htr : f.trashed with
            | none => rw [htr] at h; cases h
            | some tv =>
              rw [htr] at h
              dsimp only at h
              cases tv with
              | true =>
                rw [if_pos rfl] at h
                cases hrm : remove_from_fs (vGet s.vmap fid) s.fs with
                | error e => rw [hrm] at h; cases h
                | ok pr =>
                  rw [hrm] at h
                  obtain ⟨fs', ev⟩ := pr
                  cases h
                  left
                  exact remove_from_fs_subset _ s.fs fs' ev hrm q hq
              | false =>
                rw [if_neg Bool.false_ne_true] at h
                by_cases hsl : containsSlash nm = true
                · rw [if_pos hsl] at h
                  cases h
                  left
                  exact hq
                · rw [if_neg hsl] at h
                  by_cases hfo : mt = folderMime
                  · rw [if_pos hfo] at h
                    cases hrn : renameIfMoved true (vGet s.vmap fid) (pathJoin dp nm) s.fs with
                    | error e => rw [hrn] at h; cases h
                    | ok pr1 =>
                      rw [hrn] at h
                      obtain ⟨fs1, ev1⟩ := pr1
                      dsimp only at h
                      cases hed : ensureDir fs1 (pathJoin dp nm) with
                      | error e => rw [hed] at h; cases h
                      | ok pr2 =>
                        rw [hed] at h
                        obtain ⟨fs2, ev2⟩ := pr2
                        dsimp only at h
                        cases hrc : recur fid (pathJoin dp nm) ⟨m1, fs2, s.tr ++ ev1 ++ ev2⟩ with
                        | error e => rw [hrc] at h; cases h
                        | ok s3 =>
                          rw [hrc] at h
                          dsimp only at h
                          cases hv : f.version with
                          | none => rw [hv] at h; cases h
                          | some v =>
                            rw [hv] at h
                            cases h
                            rcases hrec fid (pathJoin dp nm) _ s3 hrc q hq with h3 | h3
                            · rcases ensureDir_created fs1 _ fs2 ev2 hed q h3 with h2 | h2
                              · rcases renameIfMoved_created true _ _ s.fs fs1 ev1 hrn q h2 with h1 | h1
                                · left; exact h1
                                · right; exact ⟨nm, rfl, h1⟩
                              · right; exact ⟨nm, rfl, h2⟩
                            · right; exact ⟨nm, rfl, h3⟩
                  · rw [if_neg hfo] at h
                    cases hmd : maybeDownload c f (vGet s.vmap fid) dp nm s.fs with
                    | error e => rw [hmd] at h; cases h
                    | ok pr1 =>
                      rw [hmd] at h
                      obtain ⟨fs1, ev1⟩ := pr1
                      dsimp only at h
                      cases hrn : renameIfMoved false (vGet s.vmap fid) (pathJoin dp nm) fs1 with
                      | error e => rw [hrn] at h; cases h
                      | ok pr2 =>
                        rw [hrn] at h
                        obtain ⟨fs2, ev2⟩ := pr2
                        dsimp only at h
                        cases hv : f.version with
                        | none => rw [hv] at h; cases h
                        | some v =>
                          rw [hv] at h
                          cases h
                          rcases renameIfMoved_created false _ _ fs1 fs2 ev2 hrn q hq with h2 | h2
                          · rcases maybeDownload_created c f _ dp nm s.fs fs1 ev1 hmd q h2 with h1 | h1
                            · left; exact h1
                            · right
                              refine ⟨nm, rfl, ?_⟩
                              rw [h1]
                              rw [List.isPrefixOf_iff_prefix]
                          · right; exact ⟨nm, rfl, h2⟩

theorem created_runChildren (step : String → File → WState → Except Err StepRes)
    (ps : List (String × File)) (dp : FPath)
    (hstep : ∀ fid f t r, (fid, f) ∈ ps → step fid f t = .ok r →
      ∀ q, FS.lookup (stepState r).fs q ≠ none →
        FS.lookup t.fs q ≠ none ∨
          ∃ n, f.name = some n ∧ (pathJoin dp n).isPrefixOf q = true) :
    ∀ s r b, runChildren step ps s = .ok (r, b) →
      ∀ q, FS.lookup r.fs q ≠ none →
        FS.lookup s.fs q ≠ none ∨
          ∃ pr ∈ ps, ∃ n, pr.2.name = some n ∧
            (pathJoin dp n).isPrefixOf q = true := by
  induction ps with
  | nil =>
    intro s r b h q hq
    cases h
    left
    exact hq
  | cons pr0 rest ih =>
    intro s r b h q hq
    obtain ⟨fid, f⟩ := pr0
    unfold runChildren at h
    cases hs : step fid f s with
    | error e => rw [hs] at h; cases h
    | ok r0 =>
      rw [hs] at h
      cases r0 with
      | stop s1 =>
        cases h
        rcases hstep fid f s (.stop r) (List.mem_cons_self _ _) hs q hq with h1 | ⟨n, hn, hp⟩
        · left; exact h1
        · right
          exact ⟨(fid, f), List.mem_cons_self _ _, n, hn, hp⟩
      | cont s1 =>
        rcases ih (fun fid' f' t r' hm hst =>
            hstep fid' f' t r' (List.mem_cons_of_mem _ hm) hst) s1 r b h q hq with h1 | ⟨pr', hm', hrest⟩
        · rcases hstep fid f s (.cont s1) (List.mem_cons_self _ _) hs q h1 with h2 | ⟨n, hn, hp⟩
          · left; exact h2
          · right
            exact ⟨(fid, f), List.mem_cons_self _ _, n, hn, hp⟩
        · right
          exact ⟨pr', List.mem_cons_of_mem _ hm', hrest⟩

theorem created_sync_dir (c : Client) :
    ∀ fuel id dp s r, sync_dir c fuel id dp s = .ok r →
      ∀ q, FS.lookup r.fs q ≠ none →
        FS.lookup s.fs q ≠ none ∨ dp.isPrefixOf q = true := by
  intro fuel
  induction fuel with
  | zero => intro id dp s r h; cases h
  | succ n ih =>
    intro id dp s r h q hq
    rw [show sync_dir c (n + 1) id dp s = sync_dir_go c (sync_dir c n) id dp s from rfl] at h
    unfold sync_dir_go at h
    cases hg : c.getFile id with
    | error e => rw [hg] at h; cases h
    | ok od =>
      rw [hg] at h
      cases od with
      | none => cases h; left; exact hq
      | some di =>
        dsimp only at h
        have hlist : ∀ (hh : (match c.listFiles id with
              | .error e => Except.error (Err.drive e)
              | .ok L =>
                match collectFiles L [] with
                | .error e => Except.error e
                | .ok ps =>
                  match runChildren (processChild c (sync_dir c n) id dp) ps
                    ⟨s.vmap, s.fs, (s.tr ++ [Event.getFile id]) ++ [Event.listChildren id]⟩ with
                  | .error e => Except.error e
                  | .ok (s', _) => Except.ok s') = Except.ok r),
            FS.lookup s.fs q ≠ none ∨ dp.isPrefixOf q = true := by
          intro hh
          cases hls : c.listFiles id with
          | error e => rw [hls] at hh; cases hh
          | ok L =>
            rw [hls] at hh
            dsimp only at hh
            cases hcf : collectFiles L [] with
            | error e => rw [hcf] at hh; cases hh
            | ok ps =>
              rw [hcf] at hh
              dsimp only at hh
              cases hr : runChildren (processChild c (sync_dir c n) id dp) ps
                  ⟨s.vmap, s.fs, (s.tr ++ [Event.getFile id]) ++ [Event.listChildren id]⟩ with
              | error e => rw [hr] at hh; cases hh
              | ok pr =>
                rw [hr] at hh
                obtain ⟨s', b⟩ := pr
                cases hh
                rcases created_runChildren _ ps dp
                  (fun fid f t r' hm hst q' hq' =>
                    created_processChild c (sync_dir c n) id dp fid f t r'
                      (fun i p' t' u hu q'' hq'' => ih i p' t' u hu q'' hq'')
                      hst q' hq')
                  _ r b hr q hq with h1 | ⟨pr', hm', n, hn, hp⟩
                · left; exact h1
                · right
                  exact isPrefixOf_trans dp (pathJoin dp n) q
                    (isPrefixOf_append_self dp (splitPath n)) hp
        cases hvg : vGet s.vmap id with
        | none =>
          rw [hvg] at h
          dsimp only at h
          rw [if_neg Bool.false_ne_true] at h
          exact hlist h
        | some e0 =>
          rw [hvg] at h
          dsimp only at h
          cases hdv : di.version with
          | none => rw [hdv] at h; cases h
          | some dv =>
            rw [hdv] at h
            dsimp only at h
            by_cases hsk : decide (e0.version = dv) = true
            · rw [if_pos hsk] at h
              cases h
              left
              exact hq
            · rw [if_neg hsk] at h
              exact hlist h

/-- The loop body at a trashed child whose stamp changed and whose entry
exists: the entry is removed from the mapping and the recorded object is
removed from the filesystem (recursively when it is a directory), and
nothing is created. -/
theorem processChild_trash_step (c : Client)
    (recur : String → FPath → WState → Except Err WState)
    (pid : String) (dp : FPath) (fid : String) (f : File) (s : WState)
    (mt n v : String) (e : Version)
    (hmt : f.mime_type = some mt) (hn : f.name = some n)
    (hv : f.version = some v) (htr : f.trashed = some true)
    (hget : vGet s.vmap fid = some e) (hne : e.version ≠ v)
    (hkind : FS.lookup s.fs e.path = none ∨
      (e.is_folder = true ∧ FS.lookup s.fs e.path = some FNode.dir) ∨
      (e.is_folder = false ∧ ∃ b, FS.lookup s.fs e.path = some (FNode.file b))) :
    ∃ s2, processChild c recur pid dp fid f s = .ok (.cont s2) ∧
      vGet s2.vmap fid = none ∧
      FS.lookup s2.fs e.path = none ∧
      ((e.is_folder = true ∧ FS.lookup s.fs e.path = some FNode.dir) →
        ∀ q, e.path.isPrefixOf q = true → FS.lookup s2.fs q = none) ∧
      (∀ q, FS.lookup s2.fs q ≠ none → FS.lookup s.fs q ≠ none) := by
  have hch : changedCheck (vGet s.vmap fid) f = .ok true := by
    unfold changedCheck
    rw [hget]
    dsimp only
    rw [hv]
    simp [hne]
  have hrm : ∃ fs2 ev, remove_from_fs (vGet s.vmap fid) s.fs = .ok (fs2, ev) ∧
      FS.lookup fs2 e.path = none ∧
      ((e.is_folder = true ∧ FS.lookup s.fs e.path = some FNode.dir) →
        ∀ q, e.path.isPrefixOf q = true → FS.lookup fs2 q = none) ∧
      (∀ q, FS.lookup fs2 q ≠ none → FS.lookup s.fs q ≠ none) := by
    rw [hget]
    rcases hkind with habs | ⟨hf, hdirk⟩ | ⟨hf, b, hfilek⟩
    · refine ⟨s.fs, [], ?_, habs, ?_, fun q hq => hq⟩
      · unfold remove_from_fs
        dsimp only
        rw [if_neg (by simp [FS.existsP, habs])]
      · intro hdir
        exact absurd hdir.2 (by simp [habs])
    · have hrd : s.fs.removeDirAll e.path =
          .ok ⟨s.fs.entries.filter (fun en => ¬ e.path.isPrefixOf en.1)⟩ := by
        unfold FS.removeDirAll
        rw [hdirk]
      refine ⟨⟨s.fs.entries.filter (fun en => ¬ e.path.isPrefixOf en.1)⟩,
        [Event.removeDirAll e.path], ?_, ?_, ?_, ?_⟩
      · unfold remove_from_fs
        dsimp only
        rw [if_pos (by simp [FS.existsP, hdirk]), if_pos hf, hrd]
      · rw [FS.lookup_removeDirAll s.fs e.path _ hrd e.path,
          if_pos (by rw [List.isPrefixOf_iff_prefix])]
      · intro _ q hpq
        rw [FS.lookup_removeDirAll s.fs e.path _ hrd q, if_pos hpq]
      · intro q hq
        exact FS.removeDirAll_subset s.fs e.path _ hrd q hq
    · have hrf : s.fs.removeFile e.path =
          .ok ⟨s.fs.entries.filter (fun en => ¬ en.1 = e.path)⟩ := by
        unfold FS.removeFile
        rw [hfilek]
      refine ⟨⟨s.fs.entries.filter (fun en => ¬ en.1 = e.path)⟩,
        [Event.removeFile e.path], ?_, ?_, ?_, ?_⟩
      · unfold remove_from_fs
        dsimp only
        rw [if_pos (by simp [FS.existsP, hfilek]),
          if_neg (by rw [hf]; exact Bool.false_ne_true), hrf]
      · rw [FS.lookup_removeFile s.fs e.path _ hrf e.path, if_pos rfl]
      · intro hdir
        rw [hf] at hdir
        exact absurd hdir.1 (by simp)
      · intro q hq
        exact FS.removeFile_subset s.fs e.path _ hrf q hq
  obtain ⟨fs2, ev, hrmv, hb, hcq, hd⟩ := hrm
  cases hrel : applyRelocation dp fid f (vGet s.vmap fid) s.vmap with
  | error e0 =>
    exact absurd hrel (by
      intro hcon
      exact abortFree_applyRelocation dp fid f _ s.vmap (by simp [hn]) "File.name unwrap"
        (by rw [hcon]
            unfold applyRelocation at hcon
            rw [hget] at hcon
            dsimp only at hcon
            split at hcon
            · cases hcon
            · rw [hn] at hcon
              cases hcon))
  | ok m1 =>
    refine ⟨⟨vRemove m1 fid, fs2, s.tr ++ ev⟩, ?_, ?_, hb, hcq, hd⟩
    · unfold processChild
      rw [hmt]
      dsimp only
      rw [hrel]
      dsimp only
      rw [hch]
      dsimp only
      rw [if_pos rfl, hn]
      dsimp only
      rw [htr]
      dsimp only
      rw [if_pos rfl, hrmv]
    · show vGet (vRemove m1 fid) fid = none
      rw [vGet_vRemove, if_pos rfl]

/-- Counterexample for C5 as stated: a listing that reports X trashed but
with a version stamp equal to the recorded one.  The trashed branch sits
inside the new-or-changed branch, so the walk does nothing: the file at
the recorded path still exists and the mapping still has X's entry. -/
theorem trash_claim_counterexample :
    sync_dir exClientTrashSame 1 "d" ["root"] ⟨exRelocMap, exFs, []⟩ =
      .ok ⟨exRelocMap, exFs, [Event.getFile "d", Event.listChildren "d"]⟩ ∧
    exTrashedSameStamp.trashed = some true ∧
    vGet exRelocMap "X" = some ⟨["root", "old"], "1", some "h", "d", false⟩ ∧
    FS.lookup exFs ["root", "old"] = some (FNode.file [1]) := by
  exact ⟨rfl, rfl, rfl, rfl⟩

/-- C5 amended: trash removal holds for a child whose stamp changed.
Suppose the walk of X's parent folder d lists its children (no
skip-by-stamp), the loop reaches X after a fully processed prefix, X is
reported trashed with a stamp different from the recorded one, the
recorded entry names path P whose on-disk kind matches the entry (or is
absent), the whole walk succeeds, and (store hygiene) no later sibling's
computed destination overlaps P.  Then after the walk the mapping has no
entry for X and the filesystem object at P no longer exists; when the
entry records a folder present as a directory the removal is recursive:
nothing under P exists either. -/
theorem trash_removal_amended (c : Client) (rank : String → Nat)
    (hU : UniqueIds c) (hR : Ranked c rank) (fuel : Nat) (d : String)
    (dp : FPath) (s : WState) (di : File) (L : List File)
    (pre post : List (String × File)) (Xid : String) (xf : File)
    (mt n v : String) (e : Version) (s1 sF : WState)
    (hg : c.getFile d = .ok (some di))
    (hnoskip : vGet s.vmap d = none ∨
      ∃ e0 dv, vGet s.vmap d = some e0 ∧ di.version = some dv ∧ e0.version ≠ dv)
    (hl : c.listFiles d = .ok L)
    (hc : collectFiles L [] = .ok (pre ++ (Xid, xf) :: post))
    (hrun : runChildren (processChild c (sync_dir c fuel) d dp) pre
      ⟨s.vmap, s.fs, s.tr ++ [Event.getFile d] ++ [Event.listChildren d]⟩ =
        .ok (s1, true))
    (hmt : xf.mime_type = some mt) (hn : xf.name = some n)
    (hv : xf.version = some v) (htr : xf.trashed = some true)
    (hget : vGet s1.vmap Xid = some e) (hne : e.version ≠ v)
    (hkind : FS.lookup s1.fs e.path = none ∨
      (e.is_folder = true ∧ FS.lookup s1.fs e.path = some FNode.dir) ∨
      (e.is_folder = false ∧ ∃ b, FS.lookup s1.fs e.path = some (FNode.file b)))
    (hwalk : sync_dir c (fuel + 1) d dp s = .ok sF)
    (hpost : ∀ pr ∈ post, ∀ n0, pr.2.name = some n0 →
      (pathJoin dp n0).isPrefixOf e.path = false ∧
        e.path.isPrefixOf (pathJoin dp n0) = false) :
    vGet sF.vmap Xid = none ∧ FS.lookup sF.fs e.path = none ∧
      ((e.is_folder = true ∧ FS.lookup s1.fs e.path = some FNode.dir) →
        ∀ q, e.path.isPrefixOf q = true → FS.lookup sF.fs q = none) := by
  obtain ⟨s2, hstep, ha, hb, hcq, hd⟩ := processChild_trash_step c
    (sync_dir c fuel) d dp Xid xf s1 mt n v e hmt hn hv htr hget hne hkind
  rw [sync_dir_unfold_list c fuel d dp s di L _ hg hnoskip hl hc,
    runChildren_append, hrun] at hwalk
  dsimp only at hwalk
  have hx : runChildren (processChild c (sync_dir c fuel) d dp)
      ((Xid, xf) :: post) s1 =
      runChildren (processChild c (sync_dir c fuel) d dp) post s2 := by
    show (match processChild c (sync_dir c fuel) d dp Xid xf s1 with
      | Except.error e => Except.error e
      | Except.ok (StepRes.stop s') => Except.ok (s', false)
      | Except.ok (StepRes.cont s') =>
        runChildren (processChild c (sync_dir c fuel) d dp) post s') = _
    rw [hstep]
  rw [hx] at hwalk
  cases hp2 : runChildren (processChild c (sync_dir c fuel) d dp) post s2 with
  | error e0 => rw [hp2] at hwalk; cases hwalk
  | ok pr =>
    rw [hp2] at hwalk
    obtain ⟨sF', b⟩ := pr
    cases hwalk
    have hdd : dedupOf c d = pre ++ (Xid, xf) :: post :=
      dedupOf_eq c d L _ hl hc
    have hXmem : (Xid, xf) ∈ dedupOf c d := by
      rw [hdd]
      exact List.mem_append_right _ (List.mem_cons_self _ _)
    have hpostmem : ∀ pr ∈ post, pr ∈ dedupOf c d := by
      intro pr hm
      rw [hdd]
      exact List.mem_append_right _ (List.mem_cons_of_mem _ hm)
    have hnd : ((pre ++ (Xid, xf) :: post).map (fun pr => pr.1)).Nodup :=
      collectFiles_keys_nodup L [] _ (by simp) hc
    have hXnotin : ∀ pr ∈ post, Xid ≠ pr.1 := by
      rw [List.map_append] at hnd
      have h2 := (List.nodup_append.mp hnd).2.1
      rw [List.map_cons] at h2
      have h3 := (List.nodup_cons.mp h2).1
      intro pr hm hkeq
      exact h3 (List.mem_map.mpr ⟨pr, hm, hkeq.symm⟩)
    refine ⟨?_, ?_, ?_⟩
    · have hfr : vGet sF.vmap Xid = vGet s2.vmap Xid := by
        refine frame_runChildren _ post (touchedIds c fuel) ?_ s2 sF b hp2 Xid ?_
        · intro fid' f' t r' hm hst k' hk' hkT'
          exact frame_processChild c (sync_dir c fuel) d dp fid' f' t r'
            (touchedIds c fuel)
            (fun i p' t' u hu k'' hk'' => frame_sync_dir c fuel i p' t' u hu k'' hk'')
            hst k' hk' hkT'
        · intro pr' hm'
          exact ⟨hXnotin pr' hm', not_touched_sibling c rank hU hR d Xid pr'.1
            xf pr'.2 hXmem (hpostmem pr' hm') fuel⟩
      rw [hfr]
      exact ha
    · by_contra hcon
      have hcon' : FS.lookup sF.fs e.path ≠ none := hcon
      rcases created_runChildren _ post dp
        (fun fid' f' t r' hm hst q' hq' =>
          created_processChild c (sync_dir c fuel) d dp fid' f' t r'
            (fun i p' t' u hu q'' hq'' => created_sync_dir c fuel i p' t' u hu q'' hq'')
            hst q' hq')
        s2 sF b hp2 e.path hcon' with h1 | ⟨pr', hm', n0, hn0, hp0⟩
      · exact h1 hb
      · exact absurd hp0 (by rw [(hpost pr' hm' n0 hn0).1]; exact Bool.false_ne_true)
    · intro hdir q hpq
      by_contra hcon
      have hcon' : FS.lookup sF.fs q ≠ none := hcon
      rcases created_runChildren _ post dp
        (fun fid' f' t r' hm hst q' hq' =>
          created_processChild c (sync_dir c fuel) d dp fid' f' t r'
            (fun i p' t' u hu q'' hq'' => created_sync_dir c fuel i p' t' u hu q'' hq'')
            hst q' hq')
        s2 sF b hp2 q hcon' with h1 | ⟨pr', hm', n0, hn0, hp0⟩
      · exact h1 (hcq hdir q hpq)
      · have hcomp := List.prefix_or_prefix_of_prefix
          (List.isPrefixOf_iff_prefix.mp hp0) (List.isPrefixOf_iff_prefix.mp hpq)
        rcases hcomp with hcc | hcc
        · exact absurd (List.isPrefixOf_iff_prefix.mpr hcc)
            (by rw [(hpost pr' hm' n0 hn0).1]; exact Bool.false_ne_true)
        · exact absurd (List.isPrefixOf_iff_prefix.mpr hcc)
            (by rw [(hpost pr' hm' n0 hn0).2]; exact Bool.false_ne_true)

/-- Witness for C5 amended: the trashed, stamp-changed file X is removed
from disk and from the mapping by the walk of its parent. -/
theorem trash_removal_amended_witness :
    vGet exTrashOutState.vmap "X" = none ∧
    FS.lookup exTrashOutState.fs ["root", "old"] = none ∧
    ((Version.is_folder ⟨["root", "old"], "1", some "h", "d", false⟩ = true ∧
        FS.lookup exFs
          (Version.path ⟨["root", "old"], "1", some "h", "d", false⟩) =
          some FNode.dir) →
      ∀ q, (["root", "old"] : FPath).isPrefixOf q = true →
        FS.lookup exTrashOutState.fs q = none) := by
  have hded : ∀ p, p ≠ "d" → dedupOf exClientTrashChanged p = [] := by
    intro p hp
    simp [dedupOf, exClientTrashChanged, collectFiles, hp]
  have hU : UniqueIds exClientTrashChanged := by
    intro p q kf f kg g hp hq hk
    by_cases hpd : p = "d"
    · by_cases hqd : q = "d"
      · rw [hpd, hqd]
      · rw [hded q hqd] at hq
        exact absurd hq (List.not_mem_nil _)
    · rw [hded p hpd] at hp
      exact absurd hp (List.not_mem_nil _)
  have hRk : Ranked exClientTrashChanged (fun x => if x = "X" then 1 else 0) := by
    intro p k f hm
    by_cases hpd : p = "d"
    · subst hpd
      have hm' : (k, f) ∈ [("X", exTrashedChanged)] := hm
      rw [List.mem_singleton] at hm'
      have hk : k = "X" := congrArg Prod.fst hm'
      simp [hk]
    · rw [hded p hpd] at hm
      exact absurd hm (List.not_mem_nil _)
  exact trash_removal_amended exClientTrashChanged
    (fun x => if x = "X" then 1 else 0) hU hRk 0 "d" ["root"]
    ⟨exRelocMap, exFs, []⟩ exDirInfo [exTrashedChanged] [] [] "X"
    exTrashedChanged "text/plain" "old" "2"
    ⟨["root", "old"], "1", some "h", "d", false⟩
    ⟨exRelocMap, exFs, [Event.getFile "d", Event.listChildren "d"]⟩
    exTrashOutState rfl (Or.inl rfl) rfl rfl rfl rfl rfl rfl rfl rfl
    (by decide) (Or.inr (Or.inr ⟨rfl, [1], rfl⟩)) rfl
    (fun pr hm => absurd hm (List.not_mem_nil _))

/-- Witness for C6: the walk of folder d stops at the slash-named child
and never touches its sibling. -/
theorem sync_dir_slash_soft_stop_witness :
    ∃ m2, sync_dir exClientSlash 1 "d" ["root"] ⟨[], exRootFs, []⟩ =
        .ok ⟨m2, exRootFs, [Event.getFile "d", Event.listChildren "d"]⟩ ∧
      ∀ k, k ≠ "x" → vGet m2 k = vGet ([] : VMap) k :=
  sync_dir_slash_soft_stop exClientSlash 0 "d" ["root"] ⟨[], exRootFs, []⟩
    exDirInfo [exSlashFile, exAfterFile] [] [("z", exAfterFile)] "x" exSlashFile
    "text/plain" "a/b" ⟨[], exRootFs, [Event.getFile "d", Event.listChildren "d"]⟩
    rfl (Or.inl rfl) rfl rfl rfl rfl rfl rfl (Or.inl rfl) rfl

end OceanDrive
